import Mathlib

/-!
Verification of the moss in-memory ordered key-value store.

This development embeds the core data model of the moss library
("memory-oriented sorted segments"): segments of (operation, key, value)
records, the copy-on-write segment stack, snapshot reads, the N-way
merging iterator, and the background merger's stack collapse.

Keys and values are byte strings, modelled as `List Nat`.  The public
interface (`moss.go`) and the test suite are the available sources; the
segment/stack/iterator/merger implementation bodies are modelled from the
specification where noted.
-/

/-- A byte string (Go `[]byte`).  A Go `nil` slice and an empty slice
compare equal under `bytes.Compare`; both are `[]` here, except where a
signature distinguishes them, in which case `Option Bytes` is used with
`none` standing for Go `nil`. -/
abbrev Bytes := List Nat

/-- Lexicographic byte order, `a ≤ b`, as computed by Go `bytes.Compare`:
compare elementwise; a strict prefix is smaller. -/
def bytesLe : Bytes → Bytes → Bool
  | [], _ => true
  | _ :: _, [] => false
  | a :: as, b :: bs => if a < b then true else if b < a then false else bytesLe as bs

/-- Lexicographic byte order, strict `a < b`. -/
def bytesLt : Bytes → Bytes → Bool
  | _, [] => false
  | [], _ :: _ => true
  | a :: as, b :: bs => if a < b then true else if b < a then false else bytesLt as bs

/-! ## Operations, records, segments -/

/-- Mutation operation tag (Go `operationSet` / `operationDel` / `operationMerge`). -/
inductive Op where
  | set
  | del
  | merge
deriving DecidableEq, Repr

/-- One (operation, key, value) record of a segment.  For `del`, `val` is
empty; for `merge`, `val` is the merge operand. -/
structure Record where
  op : Op
  key : Bytes
  val : Bytes
deriving DecidableEq, Repr

/-- Modelled from the spec: a segment is an immutable array of records
(the packed `kvs`/`buf` representation is abstracted to the record list it
denotes).  A `Batch` is a segment under construction. -/
abbrev Segment := List Record

/-- `Batch.Set`: appends a Set record, preserving insertion order. -/
def Batch.set (b : Segment) (key val : Bytes) : Segment :=
  b ++ [⟨Op.set, key, val⟩]

/-- `Batch.Del`: appends a Del (tombstone) record with empty value. -/
def Batch.del (b : Segment) (key : Bytes) : Segment :=
  b ++ [⟨Op.del, key, []⟩]

/-- `Batch.Merge`: appends a Merge record carrying the operand. -/
def Batch.mergeOp (b : Segment) (key val : Bytes) : Segment :=
  b ++ [⟨Op.merge, key, val⟩]

/-- `segment.getOperationKeyVal(i)`: random access by index; out of range
is Go's `(0, nil, nil)`, modelled as `none`. -/
def Segment.getOperationKeyVal (s : Segment) (i : Nat) : Option (Op × Bytes × Bytes) :=
  (s[i]?).map fun r => (r.op, r.key, r.val)

/-- Key order on records, used for sorting a batch. -/
def keyLE (a b : Record) : Prop := bytesLe a.key b.key = true

instance : DecidableRel keyLE := fun a b => by
  unfold keyLE; infer_instance

/-- Modelled from the spec: `segment.sort()` returns a sorted segment
equivalent to self (stable insertion sort by ascending key). -/
def Segment.sort (s : Segment) : Segment :=
  List.insertionSort keyLE s

/-- Non-strict key-sortedness of a segment. -/
def SegLe (s : Segment) : Prop := List.Pairwise keyLE s

/-- Strict key-sortedness: ascending keys with no duplicate key, the
invariant the spec requires of executed segments. -/
def SegLt (s : Segment) : Prop :=
  List.Pairwise (fun a b : Record => bytesLt a.key b.key = true) s

/-- Key at index `i`, or `[]` out of range. -/
def keyAt (s : Segment) (i : Nat) : Bytes :=
  match s[i]? with
  | some r => r.key
  | none => []

/-- Modelled from the spec: the binary-search loop of
`find_start_inclusive` (Go `sort.Search` shape): narrow `[i, j)` keeping
the answer inside, return the meeting point. -/
def findStartLoop (s : Segment) (key : Bytes) : Nat → Nat → Nat → Nat
  | 0, i, _ => i
  | Nat.succ n, i, j =>
    if i < j then
      if bytesLe key (keyAt s ((i + j) / 2)) then findStartLoop s key n i ((i + j) / 2)
      else findStartLoop s key n ((i + j) / 2 + 1) j
    else i

/-- `segment.findStartKeyInclusivePos(key)`: index of the first entry with
key ≥ `key`; `none` (Go nil) and the empty key both mean the minimum.
The loop halves `j - i` each round, so `s.length` rounds always reach
`i = j`. -/
def Segment.findStartKeyInclusivePos (s : Segment) (startKeyInclusive : Option Bytes) : Nat :=
  findStartLoop s (startKeyInclusive.getD []) s.length 0 s.length

/-- Modelled from the spec: point lookup inside one sorted segment, by
binary search then key equality check (the per-segment probe that
`segmentStack.Get` performs). -/
def Segment.getKey (s : Segment) (k : Bytes) : Option Record :=
  match s[s.findStartKeyInclusivePos (some k)]? with
  | some r => if r.key = k then some r else none
  | none => none

/-! ## Errors, merge operator, segment stack, Get -/

/-- The sealed error enumeration of moss.go (`ErrAllocTooLarge`,
`ErrIteratorDone`, `ErrMergeOperatorNil`,
`ErrMergeOperatorFullMergeFailed`, `ErrUnimplemented`). -/
inductive Err where
  | allocTooLarge
  | iteratorDone
  | mergeOperatorNil
  | mergeOperatorFullMergeFailed
  | unimplemented
deriving DecidableEq, Repr

/-- The client-supplied merge operator (moss.go `MergeOperator`); `none`
results model the Go `ok=false` returns.  `Name()` is logging-only and
omitted. -/
structure MergeOperator where
  fullMerge : Bytes → Option Bytes → List Bytes → Option Bytes
  partialMerge : Bytes → Bytes → Bytes → Option Bytes

/-- The `testMergeOperatorAppend` operator of the test suite: FullMerge
appends each operand after a ':' (byte 58) onto the existing value (empty
when nil); PartialMerge joins two operands with ':'. -/
def testMergeOperatorAppend : MergeOperator where
  fullMerge := fun _ existingValue operands =>
    some (operands.foldl (fun s operand => s ++ 58 :: operand) (existingValue.getD []))
  partialMerge := fun _ leftOperand rightOperand =>
    some (leftOperand ++ 58 :: rightOperand)

/-- Modelled from the spec: a segment stack.  The HEAD of the list is the
TOP (newest) segment — the spec's index h-1; pushes cons onto the head. -/
abbrev SegmentStack := List Segment

/-- The records a stack holds for key `k`, newest segment first (segments
without the key contribute nothing). -/
def recordsForKey (ss : SegmentStack) (k : Bytes) : List Record :=
  ss.filterMap (fun s => s.getKey k)

/-- Modelled from the spec: walking newest-to-oldest records of one key,
collect Merge operands (returned oldest-to-newest) until a terminal Set
(base `some (some v)`), Del (base `some none`), or the stack bottom
(base `none`). -/
def collectMerge : List Record → List Bytes × Option (Option Bytes)
  | [] => ([], none)
  | r :: rest =>
    match r.op with
    | Op.merge =>
      let p := collectMerge rest
      (p.1 ++ [r.val], p.2)
    | Op.set => ([], some (some r.val))
    | Op.del => ([], some none)

/-- Modelled from the spec: resolve the newest-first record list of one
key into the public value — first match wins; Set yields its value, Del
yields nil, a Merge chain invokes FullMerge with the discovered base and
the operands in oldest-to-newest order; `merge-operator-nil` without an
operator, `merge-operator-full-merge-failed` when FullMerge says not-ok. -/
def resolveRecords (mo : Option MergeOperator) (k : Bytes) (rs : List Record) :
    Except Err (Option Bytes) :=
  match rs with
  | [] => Except.ok none
  | r :: _ =>
    match r.op with
    | Op.set => Except.ok (some r.val)
    | Op.del => Except.ok none
    | Op.merge =>
      match mo with
      | none => Except.error Err.mergeOperatorNil
      | some m =>
        let p := collectMerge rs
        match m.fullMerge k p.2.join p.1 with
        | some v => Except.ok (some v)
        | none => Except.error Err.mergeOperatorFullMergeFailed

/-- Modelled from the spec: `Snapshot.Get` — probe the snapshot's stack
top-down for the key and resolve what is found; a missing key is Go's
`(nil, nil)`, i.e. `ok none`. -/
def stackGet (mo : Option MergeOperator) (ss : SegmentStack) (k : Bytes) :
    Except Err (Option Bytes) :=
  resolveRecords mo k (recordsForKey ss k)

/-- Modelled from the spec: `ExecuteBatch` sorts the batch's segment and
atomically publishes old stack + the new segment on top (copy-on-write
push). -/
def executeBatch (ss : SegmentStack) (b : Segment) : SegmentStack :=
  Segment.sort b :: ss

/-- Collection configuration (moss.go `CollectionOptions`).  The Go
`float64` percentage is modelled as a rational; the optional `Log` sink
is behaviourally irrelevant and omitted. -/
structure CollectionOptions where
  mergeOperator : Option MergeOperator
  minMergePercentage : Rat
  maxStackOpenHeight : Int
  debug : Int

/-- The zero value of `CollectionOptions` (Go `CollectionOptions{}`). -/
def CollectionOptions.zero : CollectionOptions :=
  { mergeOperator := none, minMergePercentage := 0, maxStackOpenHeight := 0, debug := 0 }

/-- The collection: options, the currently published stack, and the
started flag of the Start/Close lifecycle. -/
structure Collection where
  options : CollectionOptions
  stack : SegmentStack
  started : Bool

/-- `NewCollection` (moss.go): builds the collection value — channels,
condition variable and empty stack — and returns it with a nil error,
unconditionally. -/
def NewCollection (options : CollectionOptions) : Except Err Collection :=
  Except.ok { options := options, stack := [], started := false }

/-! ## A client program trace: executed batches and live snapshots -/

/-- A client step against one collection: execute a batch, or take a
snapshot and store it under a name. -/
inductive Cmd where
  | execBatch (b : Segment)
  | takeSnapshot (name : Nat)

/-- The mutable world: the collection's published stack and the stacks
held by live snapshots.  Taking a snapshot stores the current stack by
reference; executing a batch swaps the published stack only. -/
structure World where
  curr : SegmentStack
  snaps : List (Nat × SegmentStack)

/-- One step of the client program. -/
def stepCmd (w : World) : Cmd → World
  | Cmd.execBatch b => { w with curr := executeBatch w.curr b }
  | Cmd.takeSnapshot n => { w with snaps := (n, w.curr) :: w.snaps }

/-- Run a command list left-to-right. -/
def runCmds (w : World) (cs : List Cmd) : World :=
  cs.foldl stepCmd w

/-- The stack held by the most recently taken snapshot named `n`. -/
def lookupSnap (w : World) (n : Nat) : Option SegmentStack :=
  (w.snaps.find? (fun p => p.1 == n)).map (fun p => p.2)

/-! ## Iterator -/

/-- One per-segment cursor of an iterator: the segment and the current
index into it. -/
structure Cursor where
  seg : Segment
  idx : Nat

/-- Modelled from the spec: iterator state.  Cursors are listed
newest-segment-first, so the heap tie-break "newer segment wins on equal
keys" is "earlier cursor wins" here; `endKeyExclusive = none` is +∞. -/
structure Iter where
  cursors : List Cursor
  endKeyExclusive : Option Bytes
  mo : Option MergeOperator

/-- Is key `k` strictly below the exclusive end bound? -/
def belowEnd (endKeyExclusive : Option Bytes) (k : Bytes) : Bool :=
  match endKeyExclusive with
  | none => true
  | some e => bytesLt k e

/-- The record a cursor currently sits on, or `none` when the cursor is
exhausted (off its segment, or at a key at/past the end bound). -/
def Cursor.currentRecord (c : Cursor) (e : Option Bytes) : Option Record :=
  match c.seg[c.idx]? with
  | some r => if belowEnd e r.key then some r else none
  | none => none

/-- The live cursor records, newest segment first. -/
def validRecords (it : Iter) : List Record :=
  it.cursors.filterMap (fun c => c.currentRecord it.endKeyExclusive)

/-- Least element of a key list (the min-heap peek). -/
def minKeyOf : List Bytes → Option Bytes
  | [] => none
  | k :: ks =>
    match minKeyOf ks with
    | none => some k
    | some m => if bytesLt m k then some m else some k

/-- The smallest live key: the heap-top key of the N-way merge. -/
def topKey (it : Iter) : Option Bytes :=
  minKeyOf ((validRecords it).map (fun r => r.key))

/-- The records of all cursors currently positioned on key `k`, newest
segment first — the operand sources for public merge resolution. -/
def recordsOnKey (it : Iter) (k : Bytes) : List Record :=
  (validRecords it).filter (fun r => r.key == k)

/-- The record the raw `current()` exposes: the newest cursor on the
smallest live key. -/
def rawCurrent (it : Iter) : Option Record :=
  match topKey it with
  | none => none
  | some k => (validRecords it).find? (fun r => r.key == k)

/-- Modelled from the spec: `next()` advances every cursor whose current
key equals the top key, collapsing shadowed duplicates across segments. -/
def advance (it : Iter) (k : Bytes) : Iter :=
  { it with cursors := it.cursors.map (fun c =>
      match c.currentRecord it.endKeyExclusive with
      | some r => if r.key == k then { c with idx := c.idx + 1 } else c
      | none => c) }

/-- Total number of records not yet passed — the termination measure. -/
def remaining (it : Iter) : Nat :=
  (it.cursors.map (fun c => c.seg.length - c.idx)).sum

/-- Raw enumeration with explicit fuel: repeatedly take `current()` and
advance past its key. -/
def rawIterateF : Nat → Iter → List Record
  | 0, _ => []
  | Nat.succ n, it =>
    match rawCurrent it with
    | none => []
    | some r => r :: rawIterateF n (advance it r.key)

/-- The full raw (`current()`-level) enumeration of an iterator. -/
def rawIterate (it : Iter) : List Record :=
  rawIterateF (remaining it) it

/-- Public enumeration with fuel: per distinct key, resolve the records
of the cursors on that key — skip on a Del outcome, yield the value on a
Set/merged outcome, surface operator errors. -/
def pubIterateF : Nat → Iter → List (Except Err (Bytes × Bytes))
  | 0, _ => []
  | Nat.succ n, it =>
    match topKey it with
    | none => []
    | some k =>
      match resolveRecords it.mo k (recordsOnKey it k) with
      | Except.ok none => pubIterateF n (advance it k)
      | Except.ok (some v) => Except.ok (k, v) :: pubIterateF n (advance it k)
      | Except.error e => Except.error e :: pubIterateF n (advance it k)

/-- The full public (`Current()`-level) enumeration of an iterator. -/
def pubIterate (it : Iter) : List (Except Err (Bytes × Bytes)) :=
  pubIterateF (remaining it) it

/-- Modelled from the spec: `Snapshot.StartIterator` — one cursor per
segment, positioned at `find_start_inclusive(startKeyInclusive)`. -/
def startIterator (mo : Option MergeOperator) (ss : SegmentStack)
    (startKeyInclusive endKeyExclusive : Option Bytes) : Iter :=
  { cursors := ss.map (fun s =>
      { seg := s, idx := s.findStartKeyInclusivePos startKeyInclusive }),
    endKeyExclusive := endKeyExclusive,
    mo := mo }

/-- The raw, lowercase `current()` used by the merger: Del and Merge
records are exposed as-is; `iterator-done` when exhausted. -/
def Iter.current (it : Iter) : Except Err (Op × Bytes × Bytes) :=
  match rawCurrent it with
  | none => Except.error Err.iteratorDone
  | some r => Except.ok (r.op, r.key, r.val)

/-- The public `Current()`: the first resolved entry at or after the
current position (Del records are skipped transparently, Merge chains are
resolved); `iterator-done` when exhausted. -/
def Iter.CurrentPub (it : Iter) : Except Err (Bytes × Bytes) :=
  match pubIterate it with
  | [] => Except.error Err.iteratorDone
  | entry :: _ => entry

/-- `Next()`: advance past the current key; `iterator-done` when the
iterator was, or just became, exhausted. -/
def Iter.next (it : Iter) : Except Err Iter :=
  match topKey it with
  | none => Except.error Err.iteratorDone
  | some k =>
    match topKey (advance it k) with
    | none => Except.error Err.iteratorDone
    | some _ => Except.ok (advance it k)

/-! ## The merger -/

/-- Insert a key into a strictly ascending key list, dropping duplicates. -/
def insertKey (k : Bytes) : List Bytes → List Bytes
  | [] => [k]
  | x :: xs =>
    if bytesLt x k then x :: insertKey k xs
    else if bytesLt k x then k :: x :: xs
    else x :: xs

/-- All distinct keys present in a stack, in ascending key order. -/
def stackKeys (ss : SegmentStack) : List Bytes :=
  ((ss.flatten).map (fun r => r.key)).foldr insertKey []

/-- Pairwise left-to-right PartialMerge over an operand list
(oldest-to-newest); `none` if empty or a partial merge declines. -/
def partialAll (m : MergeOperator) (k : Bytes) : List Bytes → Option Bytes
  | [] => none
  | o :: os => os.foldl (fun acc oper => acc.bind (fun a => m.partialMerge k a oper)) (some o)

/-- Modelled from the spec: the single record the merger emits for key
`k` whose newest-first records in the merged range are `rs`.  A Set
shadows everything; a Del is dropped when the merge spans the stack
bottom and kept as a tombstone otherwise; a Merge chain is FullMerge'd
when it reaches a Set, a Del, or (when `isBottom`) the range bottom, and
is otherwise collapsed by PartialMerge into one deferred Merge record. -/
def emitKey (m : MergeOperator) (isBottom : Bool) (k : Bytes) (rs : List Record) :
    Except Err (Option Record) :=
  match rs with
  | [] => Except.ok none
  | r :: _ =>
    match r.op with
    | Op.set => Except.ok (some ⟨Op.set, k, r.val⟩)
    | Op.del => Except.ok (if isBottom then none else some ⟨Op.del, k, []⟩)
    | Op.merge =>
      let p := collectMerge rs
      match p.2 with
      | some b =>
        match m.fullMerge k b p.1 with
        | some v => Except.ok (some ⟨Op.set, k, v⟩)
        | none => Except.error Err.mergeOperatorFullMergeFailed
      | none =>
        if isBottom then
          match m.fullMerge k none p.1 with
          | some v => Except.ok (some ⟨Op.set, k, v⟩)
          | none => Except.error Err.mergeOperatorFullMergeFailed
        else
          match partialAll m k p.1 with
          | some c => Except.ok (some ⟨Op.merge, k, c⟩)
          | none => Except.error Err.unimplemented

/-- The zero-or-one-element record list an emitted option denotes. -/
def optToList : Option Record → List Record
  | some r => [r]
  | none => []

/-- Emit one record per key over an ascending key list. -/
def buildMerged (m : MergeOperator) (isBottom : Bool) (segs : SegmentStack) :
    List Bytes → Except Err (List Record)
  | [] => Except.ok []
  | k :: ks =>
    match emitKey m isBottom k (recordsForKey segs k) with
    | Except.error e => Except.error e
    | Except.ok none => buildMerged m isBottom segs ks
    | Except.ok (some r) =>
      match buildMerged m isBottom segs ks with
      | Except.error e => Except.error e
      | Except.ok rest => Except.ok (r :: rest)

/-- Modelled from the spec: `merge_into_single` over the listed segments
— the N-way collapse to one sorted segment with at most one record per
key. -/
def mergedSegment (m : MergeOperator) (isBottom : Bool) (segs : SegmentStack) :
    Except Err Segment :=
  buildMerged m isBottom segs (stackKeys segs)

/-- Modelled from the spec: one merger cycle, `merge_range` on the top
`n` segments (the spec's contiguous suffix [lo, h)): splice the single
merged segment above the untouched lower segments. -/
def mergeTopN (m : MergeOperator) (ss : SegmentStack) (n : Nat) :
    Except Err SegmentStack :=
  match mergedSegment m (ss.drop n).isEmpty (ss.take n) with
  | Except.ok seg => Except.ok (seg :: ss.drop n)
  | Except.error e => Except.error e

/-- Any number of merger cycles, each merging some top range. -/
def mergeCycles (m : MergeOperator) (ss : SegmentStack) :
    List Nat → Except Err SegmentStack
  | [] => Except.ok ss
  | n :: ns =>
    match mergeTopN m ss n with
    | Except.ok ss2 => mergeCycles m ss2 ns
    | Except.error e => Except.error e

/-! ## Denotation: what an iterator should yield, keywise -/

/-- Is key `k` strictly above the frontier `f` (the last yielded key)? -/
def frontierLt (f : Option Bytes) (k : Bytes) : Bool :=
  match f with
  | none => true
  | some fk => bytesLt fk k

/-- Does `k` satisfy the inclusive start bound `sk` and lie strictly
above the frontier `f` (the last key already yielded)? -/
def lowerOK (sk : Bytes) (f : Option Bytes) (k : Bytes) : Bool :=
  bytesLe sk k && frontierLt f k

/-- The ascending distinct keys of `ss` within the iteration window. -/
def rangeKeys (ss : SegmentStack) (sk : Bytes) (f : Option Bytes)
    (e : Option Bytes) : List Bytes :=
  (stackKeys ss).filter (fun k => lowerOK sk f k && belowEnd e k)

/-- The public outcome for one key: `none` when the key resolves to a
deletion (skipped), otherwise the yielded entry or error. -/
def pubEntry (mo : Option MergeOperator) (ss : SegmentStack) (k : Bytes) :
    Option (Except Err (Bytes × Bytes)) :=
  match resolveRecords mo k (recordsForKey ss k) with
  | Except.ok none => none
  | Except.ok (some v) => some (Except.ok (k, v))
  | Except.error e => some (Except.error e)

/-- Keywise description of a public iteration. -/
def pubDenote (mo : Option MergeOperator) (ss : SegmentStack) (sk : Bytes)
    (f : Option Bytes) (e : Option Bytes) : List (Except Err (Bytes × Bytes)) :=
  (rangeKeys ss sk f e).filterMap (pubEntry mo ss)

/-- Keywise description of a raw iteration: per key, the newest record. -/
def rawDenote (ss : SegmentStack) (sk : Bytes) (f : Option Bytes)
    (e : Option Bytes) : List Record :=
  (rangeKeys ss sk f e).filterMap (fun k => (recordsForKey ss k).head?)

/-! ## Iterator alignment predicates -/

/-- A cursor is aligned when it sits at the first index of its segment
whose key satisfies the current window (at or above the start key,
strictly above the frontier of already-yielded keys). -/
def AlignedCursor (sk : Bytes) (f : Option Bytes) (s : Segment) (c : Cursor) : Prop :=
  c.seg = s ∧ c.idx ≤ s.length ∧
  (∀ j, j < c.idx → lowerOK sk f (keyAt s j) = false) ∧
  (∀ r, s[c.idx]? = some r → lowerOK sk f r.key = true)

/-- An iterator is aligned over a stack when its cursors pair up with the
stack's segments, each aligned at the window (`sk`, `f`). -/
def Aligned (sk : Bytes) (f : Option Bytes) (ss : SegmentStack) (it : Iter) : Prop :=
  List.Forall₂ (AlignedCursor sk f) ss it.cursors

/-- Weak invariant used for range-bound facts: every live cursor key is
at or above the start key. -/
def LowerBounded (sk : Bytes) (it : Iter) : Prop :=
  ∀ r ∈ validRecords it, bytesLe sk r.key = true

/-- All cursor segments of an iterator are sorted (non-strictly). -/
def CursorsSorted (it : Iter) : Prop :=
  ∀ c ∈ it.cursors, SegLe c.seg

/-! ## Stacks built from executed batches -/

/-- Execute a list of batches in order against a collection stack. -/
def applyBatches (ss : SegmentStack) (bs : List Segment) : SegmentStack :=
  bs.foldl executeBatch ss

/-- Does a public iterator entry carry key `k`? -/
def entryHasKey (k : Bytes) : Except Err (Bytes × Bytes) → Bool
  | Except.ok p => p.1 == k
  | Except.error _ => false

/-! ## Properties of the embedding, and the claim theorems -/

@[simp] theorem bytesLe_nil (b : Bytes) : bytesLe [] b = true := by
  cases b <;> simp [bytesLe]

@[simp] theorem bytesLe_refl (a : Bytes) : bytesLe a a = true := by
  induction a with
  | nil => simp [bytesLe]
  | cons x xs ih => simp [bytesLe, ih]

theorem bytesLt_eq_not_le (a b : Bytes) : bytesLt a b = !bytesLe b a := by
  induction a generalizing b with
  | nil => cases b <;> simp [bytesLt, bytesLe]
  | cons x xs ih =>
    cases b with
    | nil => simp [bytesLt, bytesLe]
    | cons y ys =>
      by_cases h1 : x < y
      · have h2 : ¬ y < x := by omega
        simp [bytesLt, bytesLe, h1, h2]
      · by_cases h2 : y < x
        · simp [bytesLt, bytesLe, h1, h2]
        · simp [bytesLt, bytesLe, h1, h2, ih]

theorem bytesLe_total (a b : Bytes) : bytesLe a b = true ∨ bytesLe b a = true := by
  induction a generalizing b with
  | nil => left; simp
  | cons x xs ih =>
    cases b with
    | nil => right; simp
    | cons y ys =>
      by_cases h1 : x < y
      · left; simp [bytesLe, h1]
      · by_cases h2 : y < x
        · right; have h3 : ¬ y > x := by omega
          simp [bytesLe, h2, h3]
        · have hxy : x = y := by omega
          subst hxy
          rcases ih ys with h | h
          · left; simp [bytesLe, h]
          · right; simp [bytesLe, h]

theorem bytesLe_antisymm {a b : Bytes} (h1 : bytesLe a b = true)
    (h2 : bytesLe b a = true) : a = b := by
  induction a generalizing b with
  | nil =>
    cases b with
    | nil => rfl
    | cons y ys => simp [bytesLe] at h2
  | cons x xs ih =>
    cases b with
    | nil => simp [bytesLe] at h1
    | cons y ys =>
      by_cases hxy : x < y
      · have : ¬ y < x := by omega
        simp [bytesLe, hxy, this] at h2
      · by_cases hyx : y < x
        · simp [bytesLe, hxy, hyx] at h1
        · have heq : x = y := by omega
          subst heq
          simp [bytesLe, hxy, hyx] at h1 h2
          rw [ih h1 h2]

theorem bytesLe_trans {a b c : Bytes} (h1 : bytesLe a b = true)
    (h2 : bytesLe b c = true) : bytesLe a c = true := by
  induction a generalizing b c with
  | nil => simp
  | cons x xs ih =>
    cases b with
    | nil => simp [bytesLe] at h1
    | cons y ys =>
      cases c with
      | nil => simp [bytesLe] at h2
      | cons z zs =>
        by_cases hxy : x < y
        · by_cases hyz : y < z
          · have : x < z := by omega
            simp [bytesLe, this]
          · by_cases hzy : z < y
            · simp [bytesLe, hyz, hzy] at h2
            · have : y = z := by omega
              subst this
              simp [bytesLe, hxy]
        · by_cases hyx : y < x
          · simp [bytesLe, hxy, hyx] at h1
          · have hxy' : x = y := by omega
            subst hxy'
            simp only [bytesLe, if_neg hxy, if_neg hyx] at h1
            by_cases hxz : x < z
            · simp [bytesLe, hxz]
            · by_cases hzx : z < x
              · simp [bytesLe, hxz, hzx] at h2
              · simp only [bytesLe, if_neg hxz, if_neg hzx] at h2 ⊢
                exact ih h1 h2

theorem bytesLe_of_lt {a b : Bytes} (h : bytesLt a b = true) : bytesLe a b = true := by
  rw [bytesLt_eq_not_le] at h
  rcases bytesLe_total a b with h' | h'
  · exact h'
  · simp [h'] at h

theorem bytesLt_irrefl (a : Bytes) : bytesLt a a = false := by
  rw [bytesLt_eq_not_le]
  simp

theorem bytesLt_of_le_of_ne {a b : Bytes} (h : bytesLe a b = true) (hne : a ≠ b) :
    bytesLt a b = true := by
  rw [bytesLt_eq_not_le]
  by_cases hba : bytesLe b a = true
  · exact absurd (bytesLe_antisymm h hba) hne
  · simp [hba]

theorem ne_of_bytesLt {a b : Bytes} (h : bytesLt a b = true) : a ≠ b := by
  intro he
  subst he
  rw [bytesLt_irrefl] at h
  exact absurd h (by simp)

theorem not_le_of_bytesLt {a b : Bytes} (h : bytesLt a b = true) :
    bytesLe b a = false := by
  rw [bytesLt_eq_not_le] at h
  cases hba : bytesLe b a
  · rfl
  · rw [hba] at h; simp at h

theorem bytesLt_of_lt_of_le {a b c : Bytes} (h1 : bytesLt a b = true)
    (h2 : bytesLe b c = true) : bytesLt a c = true := by
  have hab := bytesLe_of_lt h1
  have hac := bytesLe_trans hab h2
  apply bytesLt_of_le_of_ne hac
  intro he
  subst he
  exact (ne_of_bytesLt h1) (bytesLe_antisymm hab h2)

theorem bytesLt_of_le_of_lt {a b c : Bytes} (h1 : bytesLe a b = true)
    (h2 : bytesLt b c = true) : bytesLt a c = true := by
  have hbc := bytesLe_of_lt h2
  have hac := bytesLe_trans h1 hbc
  apply bytesLt_of_le_of_ne hac
  intro he
  subst he
  have := not_le_of_bytesLt h2
  rw [h1] at this
  exact absurd this (by simp)

theorem bytesLt_trans {a b c : Bytes} (h1 : bytesLt a b = true)
    (h2 : bytesLt b c = true) : bytesLt a c = true :=
  bytesLt_of_lt_of_le h1 (bytesLe_of_lt h2)

theorem bytesLe_of_not_lt {a b : Bytes} (h : ¬ bytesLt a b = true) :
    bytesLe b a = true := by
  rw [bytesLt_eq_not_le] at h
  cases hba : bytesLe b a
  · rw [hba] at h; simp at h
  · rfl

instance : IsTotal Record keyLE :=
  ⟨fun a b => bytesLe_total a.key b.key⟩

instance : IsTrans Record keyLE :=
  ⟨fun _ _ _ h1 h2 => bytesLe_trans h1 h2⟩

theorem SegLe_of_SegLt {s : Segment} (h : SegLt s) : SegLe s :=
  h.imp fun hab => bytesLe_of_lt hab

theorem sort_perm (s : Segment) : (Segment.sort s).Perm s :=
  List.perm_insertionSort keyLE s

theorem sort_segLe (s : Segment) : SegLe (Segment.sort s) :=
  List.sorted_insertionSort keyLE s

theorem sort_segLt {s : Segment} (h : (s.map fun r => r.key).Nodup) :
    SegLt (Segment.sort s) := by
  have hperm : ((Segment.sort s).map fun r => r.key).Perm (s.map fun r => r.key) :=
    (sort_perm s).map _
  have hnd : ((Segment.sort s).map fun r => r.key).Nodup := hperm.nodup_iff.mpr h
  have hne : List.Pairwise (fun a b : Record => a.key ≠ b.key) (Segment.sort s) := by
    rw [List.Nodup, List.pairwise_map] at hnd
    exact hnd
  have hle := sort_segLe s
  exact (hle.and hne).imp fun hab => bytesLt_of_le_of_ne hab.1 hab.2

theorem keyAt_of_getElem {s : Segment} {i : Nat} (h : i < s.length) :
    keyAt s i = s[i].key := by
  simp [keyAt, List.getElem?_eq_getElem h]

theorem segLe_keyAt_mono {s : Segment} (hs : SegLe s) {i j : Nat}
    (hij : i ≤ j) (hj : j < s.length) :
    bytesLe (keyAt s i) (keyAt s j) = true := by
  rcases Nat.eq_or_lt_of_le hij with he | hlt
  · subst he; simp [bytesLe_refl]
  · have hi : i < s.length := Nat.lt_trans hlt hj
    rw [keyAt_of_getElem hi, keyAt_of_getElem hj]
    exact (List.pairwise_iff_getElem.mp hs) i j hi hj hlt

theorem segLt_keyAt_strictMono {s : Segment} (hs : SegLt s) {i j : Nat}
    (hij : i < j) (hj : j < s.length) :
    bytesLt (keyAt s i) (keyAt s j) = true := by
  have hi : i < s.length := Nat.lt_trans hij hj
  rw [keyAt_of_getElem hi, keyAt_of_getElem hj]
  exact (List.pairwise_iff_getElem.mp hs) i j hi hj hij

theorem findStartLoop_spec (s : Segment) (key : Bytes)
    (hmono : ∀ x y, x ≤ y → y < s.length →
      bytesLe key (keyAt s x) = true → bytesLe key (keyAt s y) = true) :
    ∀ n (i j : Nat), j - i ≤ n → i ≤ j → j ≤ s.length →
    (∀ x, x < i → bytesLe key (keyAt s x) = false) →
    (∀ x, j ≤ x → x < s.length → bytesLe key (keyAt s x) = true) →
    (∀ x, x < findStartLoop s key n i j → bytesLe key (keyAt s x) = false) ∧
    (∀ x, findStartLoop s key n i j ≤ x → x < s.length →
      bytesLe key (keyAt s x) = true) ∧
    i ≤ findStartLoop s key n i j ∧ findStartLoop s key n i j ≤ j := by
  intro n
  induction n with
  | zero =>
    intro i j hn hij hjlen hlow hhigh
    have : i = j := by omega
    subst this
    simp only [findStartLoop]
    exact ⟨hlow, hhigh, le_refl _, le_refl _⟩
  | succ n ih =>
    intro i j hn hij hjlen hlow hhigh
    simp only [findStartLoop]
    by_cases hlt : i < j
    · rw [if_pos hlt]
      have hmi : i ≤ (i + j) / 2 := by omega
      have hmj : (i + j) / 2 < j := by omega
      by_cases hkm : bytesLe key (keyAt s ((i + j) / 2)) = true
      · rw [if_pos hkm]
        obtain ⟨h1, h2, h3, h4⟩ := ih i ((i + j) / 2) (by omega) hmi (by omega) hlow
          (fun x hx hxlen => hmono ((i + j) / 2) x (by omega) hxlen hkm)
        exact ⟨h1, h2, h3, by omega⟩
      · rw [if_neg hkm]
        have hlow' : ∀ x, x < (i + j) / 2 + 1 → bytesLe key (keyAt s x) = false := by
          intro x hx
          rcases Nat.lt_or_ge x i with hxi | hxi
          · exact hlow x hxi
          · cases hxk : bytesLe key (keyAt s x)
            · rfl
            · have hxm : x ≤ (i + j) / 2 := by omega
              have hmlen : (i + j) / 2 < s.length := by omega
              have := hmono x ((i + j) / 2) hxm hmlen hxk
              simp [this] at hkm
        obtain ⟨h1, h2, h3, h4⟩ := ih ((i + j) / 2 + 1) j (by omega) (by omega) hjlen hlow' hhigh
        exact ⟨h1, h2, by omega, h4⟩
    · rw [if_neg hlt]
      have : i = j := by omega
      subst this
      exact ⟨hlow, hhigh, le_refl _, le_refl _⟩

theorem findStart_spec (s : Segment) (hs : SegLe s) (k : Option Bytes) :
    let key := k.getD []
    let r := s.findStartKeyInclusivePos k
    r ≤ s.length ∧
    (∀ x, x < r → bytesLe key (keyAt s x) = false) ∧
    (∀ x, r ≤ x → x < s.length → bytesLe key (keyAt s x) = true) := by
  intro key r
  have hmono : ∀ x y, x ≤ y → y < s.length →
      bytesLe key (keyAt s x) = true → bytesLe key (keyAt s y) = true := by
    intro x y hxy hylen hx
    exact bytesLe_trans hx (segLe_keyAt_mono hs hxy hylen)
  have := findStartLoop_spec s key hmono s.length 0 s.length (by omega)
    (by omega) (le_refl _) (fun x hx => absurd hx (by omega))
    (fun x hx hxlen => absurd hxlen (by omega))
  exact ⟨this.2.2.2, this.1, this.2.1⟩

theorem getKey_mem_of_eq_some {s : Segment} {k : Bytes} {r : Record}
    (h : s.getKey k = some r) : r ∈ s ∧ r.key = k := by
  unfold Segment.getKey at h
  cases hg : s[s.findStartKeyInclusivePos (some k)]? with
  | none => rw [hg] at h; simp at h
  | some r' =>
    rw [hg] at h
    by_cases hk : r'.key = k
    · simp only [hk, if_true, Option.some.injEq] at h
      subst h
      exact ⟨List.getElem?_mem hg, hk⟩
    · simp [hk] at h

theorem getKey_eq_none_of_not_mem {s : Segment} {k : Bytes}
    (h : ∀ r ∈ s, r.key ≠ k) : s.getKey k = none := by
  cases hg : s.getKey k with
  | none => rfl
  | some r =>
    have ⟨hmem, hkey⟩ := getKey_mem_of_eq_some hg
    exact absurd hkey (h r hmem)

theorem getKey_eq_some_of_mem {s : Segment} (hs : SegLt s) {k : Bytes} {r : Record}
    (hmem : r ∈ s) (hkey : r.key = k) : s.getKey k = some r := by
  obtain ⟨j, hj, hjr⟩ := List.getElem_of_mem hmem
  have hspec := findStart_spec s (SegLe_of_SegLt hs) (some k)
  simp only [Option.getD_some] at hspec
  obtain ⟨hrle, hlow, hhigh⟩ := hspec
  set p := s.findStartKeyInclusivePos (some k) with hp
  have hkj : keyAt s j = k := by rw [keyAt_of_getElem hj, hjr, hkey]
  have hjp : p ≤ j := by
    by_contra hc
    have := hlow j (by omega)
    rw [hkj, bytesLe_refl] at this
    exact absurd this (by simp)
  have hplen : p < s.length := by omega
  have hple : bytesLe k (keyAt s p) = true := hhigh p (le_refl _) hplen
  have hpge : bytesLe (keyAt s p) k = true := by
    rcases Nat.eq_or_lt_of_le hjp with he | hlt
    · rw [he, hkj, bytesLe_refl]
    · rw [← hkj]
      exact bytesLe_of_lt (segLt_keyAt_strictMono hs hlt hj)
  have hpk : keyAt s p = k := bytesLe_antisymm hpge hple
  have hpj : p = j := by
    rcases Nat.eq_or_lt_of_le hjp with he | hlt
    · exact he
    · have := segLt_keyAt_strictMono hs hlt hj
      rw [hpk, hkj] at this
      rw [bytesLt_irrefl] at this
      exact absurd this (by simp)
  unfold Segment.getKey
  rw [← hp, hpj, List.getElem?_eq_getElem hj, hjr]
  simp [hkey]

/-! ## List and order helpers -/

theorem find?_eq_head?_filter {α} (p : α → Bool) (l : List α) :
    l.find? p = (l.filter p).head? := by
  induction l with
  | nil => rfl
  | cons x xs ih =>
    by_cases hx : p x
    · rw [List.find?_cons_of_pos _ hx, List.filter_cons_of_pos hx]; rfl
    · rw [List.find?_cons_of_neg _ (by simpa using hx),
        List.filter_cons_of_neg (by simpa using hx), ih]

theorem forall₂_mem_right {α β} {R : α → β → Prop} {l₁ : List α} {l₂ : List β}
    (h : List.Forall₂ R l₁ l₂) {b : β} (hb : b ∈ l₂) : ∃ a ∈ l₁, R a b := by
  induction h with
  | nil => simp at hb
  | cons hR _ ih =>
    rcases List.mem_cons.mp hb with he | hm
    · subst he; exact ⟨_, List.mem_cons_self _ _, hR⟩
    · obtain ⟨a, ha, hab⟩ := ih hm
      exact ⟨a, List.mem_cons_of_mem _ ha, hab⟩

theorem sum_map_lt {α} {l : List α} (f g : α → Nat)
    (hle : ∀ a ∈ l, g a ≤ f a) {a₀ : α} (ha : a₀ ∈ l) (hlt : g a₀ < f a₀) :
    (l.map g).sum < (l.map f).sum := by
  induction l with
  | nil => simp at ha
  | cons x xs ih =>
    simp only [List.map_cons, List.sum_cons]
    rcases List.mem_cons.mp ha with he | hm
    · subst he
      have hsum : (xs.map g).sum ≤ (xs.map f).sum :=
        List.sum_le_sum fun a hma => hle a (List.mem_cons_of_mem _ hma)
      omega
    · have hx := hle x (List.mem_cons_self _ _)
      have := ih (fun a hma => hle a (List.mem_cons_of_mem _ hma)) hm
      omega

theorem minKeyOf_eq_none {l : List Bytes} : minKeyOf l = none ↔ l = [] := by
  cases l with
  | nil => simp [minKeyOf]
  | cons k ks =>
    simp only [minKeyOf]
    constructor
    · intro h
      split at h
      · simp at h
      · split at h <;> simp at h
    · intro h
      exact absurd h (by simp)

theorem minKeyOf_mem {l : List Bytes} {k : Bytes} (h : minKeyOf l = some k) :
    k ∈ l := by
  induction l generalizing k with
  | nil => simp [minKeyOf] at h
  | cons x xs ih =>
    simp only [minKeyOf] at h
    split at h
    · simp only [Option.some.injEq] at h
      subst h
      exact List.mem_cons_self _ _
    · rename_i m hm
      split at h <;> simp only [Option.some.injEq] at h <;> subst h
      · exact List.mem_cons_of_mem _ (ih hm)
      · exact List.mem_cons_self _ _

theorem minKeyOf_le {l : List Bytes} {k : Bytes} (h : minKeyOf l = some k) :
    ∀ x ∈ l, bytesLe k x = true := by
  induction l generalizing k with
  | nil => simp
  | cons y ys ih =>
    intro x hx
    simp only [minKeyOf] at h
    split at h
    · rename_i hm
      simp only [Option.some.injEq] at h
      subst h
      rcases List.mem_cons.mp hx with he | hmem
      · subst he; simp
      · rw [minKeyOf_eq_none.mp hm] at hmem
        simp at hmem
    · rename_i m hm
      rcases List.mem_cons.mp hx with he | hmem
      · subst he
        split at h <;> simp only [Option.some.injEq] at h <;> subst h
        · rename_i hlt
          exact bytesLe_of_lt hlt
        · simp
      · split at h <;> simp only [Option.some.injEq] at h <;> subst h
        · exact ih hm x hmem
        · rename_i hnlt
          exact bytesLe_trans (bytesLe_of_not_lt hnlt) (ih hm x hmem)

theorem minKeyOf_eq_some {l : List Bytes} {k : Bytes} (hmem : k ∈ l)
    (hle : ∀ x ∈ l, bytesLe k x = true) : minKeyOf l = some k := by
  cases hm : minKeyOf l with
  | none =>
    rw [minKeyOf_eq_none.mp hm] at hmem
    simp at hmem
  | some m =>
    have h1 : bytesLe k m = true := hle m (minKeyOf_mem hm)
    have h2 : bytesLe m k = true := minKeyOf_le hm k hmem
    rw [bytesLe_antisymm h1 h2]

theorem mem_insertKey {k x : Bytes} {l : List Bytes} :
    x ∈ insertKey k l ↔ x = k ∨ x ∈ l := by
  induction l with
  | nil => simp [insertKey]
  | cons y ys ih =>
    simp only [insertKey]
    split
    · simp only [List.mem_cons, ih]
      tauto
    · split
      · simp only [List.mem_cons]
      · rename_i h1 h2
        have hyk : y = k :=
          bytesLe_antisymm (bytesLe_of_not_lt h2) (bytesLe_of_not_lt h1)
        subst hyk
        simp only [List.mem_cons]
        tauto

theorem insertKey_sorted {k : Bytes} {l : List Bytes}
    (h : List.Pairwise (fun a b => bytesLt a b = true) l) :
    List.Pairwise (fun a b => bytesLt a b = true) (insertKey k l) := by
  induction l with
  | nil => simp [insertKey]
  | cons y ys ih =>
    rw [List.pairwise_cons] at h
    obtain ⟨hy, hys⟩ := h
    simp only [insertKey]
    split
    · rename_i hyk
      rw [List.pairwise_cons]
      refine ⟨?_, ih hys⟩
      intro x hx
      rcases mem_insertKey.mp hx with he | hm
      · subst he; exact hyk
      · exact hy x hm
    · split
      · rename_i hyk hky
        rw [List.pairwise_cons]
        refine ⟨?_, List.pairwise_cons.mpr ⟨hy, hys⟩⟩
        intro x hx
        rcases List.mem_cons.mp hx with he | hm
        · subst he; exact hky
        · exact bytesLt_trans hky (hy x hm)
      · exact List.pairwise_cons.mpr ⟨hy, hys⟩

theorem mem_foldr_insertKey {x : Bytes} {l : List Bytes} :
    x ∈ l.foldr insertKey [] ↔ x ∈ l := by
  induction l with
  | nil => simp
  | cons y ys ih =>
    simp only [List.foldr_cons, mem_insertKey, List.mem_cons, ih]

theorem foldr_insertKey_sorted (l : List Bytes) :
    List.Pairwise (fun a b => bytesLt a b = true) (l.foldr insertKey []) := by
  induction l with
  | nil => simp
  | cons y ys ih => exact insertKey_sorted ih

theorem mem_stackKeys {ss : SegmentStack} {k : Bytes} :
    k ∈ stackKeys ss ↔ ∃ s ∈ ss, ∃ r ∈ s, r.key = k := by
  unfold stackKeys
  rw [mem_foldr_insertKey]
  simp only [List.mem_map, List.mem_flatten]
  constructor
  · rintro ⟨r, ⟨s, hs, hr⟩, rfl⟩
    exact ⟨s, hs, r, hr, rfl⟩
  · rintro ⟨s, hs, r, hr, rfl⟩
    exact ⟨r, ⟨s, hs, hr⟩, rfl⟩

theorem stackKeys_sorted (ss : SegmentStack) :
    List.Pairwise (fun a b => bytesLt a b = true) (stackKeys ss) :=
  foldr_insertKey_sorted _

/-! ## Iterator stepping lemmas -/

theorem currentRecord_eq_some_iff {c : Cursor} {e : Option Bytes} {r : Record} :
    c.currentRecord e = some r ↔ c.seg[c.idx]? = some r ∧ belowEnd e r.key = true := by
  unfold Cursor.currentRecord
  constructor
  · intro h
    split at h
    · rename_i r' hg
      split at h
      · rename_i hb
        simp only [Option.some.injEq] at h
        subst h
        exact ⟨hg, hb⟩
      · simp at h
    · simp at h
  · rintro ⟨hg, hb⟩
    rw [hg]
    simp [hb]

theorem advance_cursors (it : Iter) (k : Bytes) :
    (advance it k).cursors = it.cursors.map (fun c =>
      match c.currentRecord it.endKeyExclusive with
      | some r => if r.key == k then { c with idx := c.idx + 1 } else c
      | none => c) := rfl

@[simp] theorem advance_endKey (it : Iter) (k : Bytes) :
    (advance it k).endKeyExclusive = it.endKeyExclusive := rfl

@[simp] theorem advance_mo (it : Iter) (k : Bytes) :
    (advance it k).mo = it.mo := rfl

theorem remaining_eq_zero_topKey {it : Iter} (h : remaining it = 0) :
    topKey it = none := by
  have hall : ∀ c ∈ it.cursors, c.seg.length - c.idx = 0 := by
    intro c hc
    have := List.sum_eq_zero_iff.mp h (c.seg.length - c.idx)
      (List.mem_map.mpr ⟨c, hc, rfl⟩)
    exact this
  have hval : validRecords it = [] := by
    apply List.filterMap_eq_nil.mpr
    intro c hc
    have hlen : c.seg.length ≤ c.idx := by
      have := hall c hc
      omega
    unfold Cursor.currentRecord
    rw [List.getElem?_eq_none hlen]
  unfold topKey
  rw [hval]
  rfl

theorem topKey_some_exists {it : Iter} {k : Bytes} (h : topKey it = some k) :
    ∃ c ∈ it.cursors, ∃ r, c.currentRecord it.endKeyExclusive = some r ∧ r.key = k := by
  unfold topKey at h
  have hk := minKeyOf_mem h
  simp only [List.mem_map] at hk
  obtain ⟨r, hr, hkey⟩ := hk
  unfold validRecords at hr
  rw [List.mem_filterMap] at hr
  obtain ⟨c, hc, hcr⟩ := hr
  exact ⟨c, hc, r, hcr, hkey⟩

theorem topKey_le_validKeys {it : Iter} {k : Bytes} (h : topKey it = some k) :
    ∀ r ∈ validRecords it, bytesLe k r.key = true := by
  intro r hr
  exact minKeyOf_le h r.key (List.mem_map.mpr ⟨r, hr, rfl⟩)

theorem remaining_advance_le (it : Iter) (k : Bytes) :
    remaining (advance it k) ≤ remaining it := by
  unfold remaining
  rw [advance_cursors, List.map_map]
  apply List.sum_le_sum
  intro c _
  simp only [Function.comp]
  split
  · rename_i r hcr
    split
    · simp only
      omega
    · exact le_refl _
  · exact le_refl _

theorem remaining_advance_lt {it : Iter} {k : Bytes} (h : topKey it = some k) :
    remaining (advance it k) < remaining it := by
  obtain ⟨c, hc, r, hcr, hkey⟩ := topKey_some_exists h
  unfold remaining
  rw [advance_cursors, List.map_map]
  refine sum_map_lt (fun c : Cursor => c.seg.length - c.idx) _ ?_ hc ?_
  · intro a _
    simp only [Function.comp]
    split
    · split
      · simp only
        omega
      · exact le_refl _
    · exact le_refl _
  · simp only [Function.comp, hcr]
    have hidx : c.idx < c.seg.length := by
      have := (currentRecord_eq_some_iff.mp hcr).1
      exact (List.getElem?_eq_some.mp this).1
    rw [if_pos (by simp [hkey])]
    simp only
    omega

theorem remaining_pos {it : Iter} {k : Bytes} (h : topKey it = some k) :
    0 < remaining it := by
  rcases Nat.eq_zero_or_pos (remaining it) with hz | hp
  · rw [remaining_eq_zero_topKey hz] at h
    simp at h
  · exact hp

theorem rawCurrent_eq_none_iff {it : Iter} :
    rawCurrent it = none ↔ topKey it = none := by
  unfold rawCurrent
  cases hk : topKey it with
  | none => simp
  | some k =>
    simp only
    constructor
    · intro h
      have hk' := hk
      unfold topKey at hk'
      have hmem := minKeyOf_mem hk'
      simp only [List.mem_map] at hmem
      obtain ⟨r, hr, hkey⟩ := hmem
      have : (validRecords it).find? (fun r => r.key == k) ≠ none := by
        intro hn
        rw [List.find?_eq_none] at hn
        exact absurd (by simp [hkey]) (hn r hr)
      exact absurd h this
    · intro h
      simp at h

theorem rawCurrent_key {it : Iter} {r : Record} (h : rawCurrent it = some r) :
    topKey it = some r.key := by
  unfold rawCurrent at h
  cases hk : topKey it with
  | none => rw [hk] at h; simp at h
  | some k =>
    rw [hk] at h
    simp only at h
    have := List.find?_some h
    simp only [beq_iff_eq] at this
    rw [this]

theorem rawIterateF_congr : ∀ (n m : Nat) (it : Iter), remaining it ≤ n →
    remaining it ≤ m → rawIterateF n it = rawIterateF m it := by
  intro n
  induction n with
  | zero =>
    intro m it hn _
    have htop : topKey it = none := remaining_eq_zero_topKey (by omega)
    have hraw : rawCurrent it = none := rawCurrent_eq_none_iff.mpr htop
    cases m with
    | zero => rfl
    | succ m => simp [rawIterateF, hraw]
  | succ n ih =>
    intro m it hn hm
    cases m with
    | zero =>
      have htop : topKey it = none := remaining_eq_zero_topKey (by omega)
      have hraw : rawCurrent it = none := rawCurrent_eq_none_iff.mpr htop
      simp [rawIterateF, hraw]
    | succ m =>
      simp only [rawIterateF]
      cases hr : rawCurrent it with
      | none => rfl
      | some r =>
        have htop := rawCurrent_key hr
        have hlt := remaining_advance_lt htop
        show r :: rawIterateF n (advance it r.key) = r :: rawIterateF m (advance it r.key)
        exact congrArg (fun l => r :: l) (ih m (advance it r.key) (by omega) (by omega))

theorem pubIterateF_congr : ∀ (n m : Nat) (it : Iter), remaining it ≤ n →
    remaining it ≤ m → pubIterateF n it = pubIterateF m it := by
  intro n
  induction n with
  | zero =>
    intro m it hn _
    have htop : topKey it = none := remaining_eq_zero_topKey (by omega)
    cases m with
    | zero => rfl
    | succ m => simp [pubIterateF, htop]
  | succ n ih =>
    intro m it hn hm
    cases m with
    | zero =>
      have htop : topKey it = none := remaining_eq_zero_topKey (by omega)
      simp [pubIterateF, htop]
    | succ m =>
      simp only [pubIterateF]
      cases hk : topKey it with
      | none => rfl
      | some k =>
        have hlt := remaining_advance_lt hk
        have hih := ih m (advance it k) (by omega) (by omega)
        show (match resolveRecords it.mo k (recordsOnKey it k) with
          | Except.ok none => pubIterateF n (advance it k)
          | Except.ok (some v) => Except.ok (k, v) :: pubIterateF n (advance it k)
          | Except.error e => Except.error e :: pubIterateF n (advance it k)) =
          (match resolveRecords it.mo k (recordsOnKey it k) with
          | Except.ok none => pubIterateF m (advance it k)
          | Except.ok (some v) => Except.ok (k, v) :: pubIterateF m (advance it k)
          | Except.error e => Except.error e :: pubIterateF m (advance it k))
        rw [hih]

theorem rawIterate_done {it : Iter} (h : rawCurrent it = none) :
    rawIterate it = [] := by
  unfold rawIterate
  cases hrem : remaining it with
  | zero => rfl
  | succ n => simp [rawIterateF, h]

theorem rawIterate_yield {it : Iter} {r : Record} (h : rawCurrent it = some r) :
    rawIterate it = r :: rawIterate (advance it r.key) := by
  have htop := rawCurrent_key h
  have hpos := remaining_pos htop
  have hlt := remaining_advance_lt htop
  unfold rawIterate
  cases hrem : remaining it with
  | zero => omega
  | succ n =>
    simp only [rawIterateF, h]
    exact congrArg (fun l => r :: l)
      (rawIterateF_congr n (remaining (advance it r.key)) (advance it r.key)
        (by omega) (le_refl _))

theorem pubIterate_done {it : Iter} (h : topKey it = none) :
    pubIterate it = [] := by
  unfold pubIterate
  cases hrem : remaining it with
  | zero => rfl
  | succ n => simp [pubIterateF, h]

theorem pubIterate_skip {it : Iter} {k : Bytes} (hk : topKey it = some k)
    (hres : resolveRecords it.mo k (recordsOnKey it k) = Except.ok none) :
    pubIterate it = pubIterate (advance it k) := by
  have hpos := remaining_pos hk
  have hlt := remaining_advance_lt hk
  unfold pubIterate
  cases hrem : remaining it with
  | zero => omega
  | succ n =>
    simp only [pubIterateF, hk, hres]
    exact pubIterateF_congr n (remaining (advance it k)) (advance it k)
      (by omega) (le_refl _)

theorem pubIterate_yield {it : Iter} {k : Bytes} {v : Bytes} (hk : topKey it = some k)
    (hres : resolveRecords it.mo k (recordsOnKey it k) = Except.ok (some v)) :
    pubIterate it = Except.ok (k, v) :: pubIterate (advance it k) := by
  have hpos := remaining_pos hk
  have hlt := remaining_advance_lt hk
  unfold pubIterate
  cases hrem : remaining it with
  | zero => omega
  | succ n =>
    simp only [pubIterateF, hk, hres]
    exact congrArg (fun l => Except.ok (k, v) :: l)
      (pubIterateF_congr n (remaining (advance it k)) (advance it k)
        (by omega) (le_refl _))

theorem pubIterate_err {it : Iter} {k : Bytes} {e : Err} (hk : topKey it = some k)
    (hres : resolveRecords it.mo k (recordsOnKey it k) = Except.error e) :
    pubIterate it = Except.error e :: pubIterate (advance it k) := by
  have hpos := remaining_pos hk
  have hlt := remaining_advance_lt hk
  unfold pubIterate
  cases hrem : remaining it with
  | zero => omega
  | succ n =>
    simp only [pubIterateF, hk, hres]
    exact congrArg (fun l => Except.error e :: l)
      (pubIterateF_congr n (remaining (advance it k)) (advance it k)
        (by omega) (le_refl _))

/-! ## Alignment of iterators over their stack -/

theorem forall₂_map_self {α β} {R : α → β → Prop} {f : α → β} {l : List α}
    (h : ∀ a ∈ l, R a (f a)) : List.Forall₂ R l (l.map f) := by
  induction l with
  | nil => simp
  | cons x xs ih =>
    rw [List.map_cons, List.forall₂_cons]
    exact ⟨h x (List.mem_cons_self _ _),
      ih fun a ha => h a (List.mem_cons_of_mem _ ha)⟩

theorem forall₂_map_imp {α β} {R S : α → β → Prop} {g : β → β} {l₁ : List α}
    {l₂ : List β} (h : List.Forall₂ R l₁ l₂)
    (himp : ∀ a b, a ∈ l₁ → b ∈ l₂ → R a b → S a (g b)) :
    List.Forall₂ S l₁ (l₂.map g) := by
  induction h with
  | nil => simp
  | cons hR hrest ih =>
    rw [List.map_cons, List.forall₂_cons]
    refine ⟨himp _ _ (List.mem_cons_self _ _) (List.mem_cons_self _ _) hR, ?_⟩
    exact ih fun a b ha hb hab =>
      himp a b (List.mem_cons_of_mem _ ha) (List.mem_cons_of_mem _ hb) hab

theorem startIterator_aligned (mo : Option MergeOperator) (ss : SegmentStack)
    (startKey e : Option Bytes) (hs : ∀ s ∈ ss, SegLe s) :
    Aligned (startKey.getD []) none ss (startIterator mo ss startKey e) := by
  unfold Aligned startIterator
  simp only
  apply forall₂_map_self
  intro s hsmem
  have hspec := findStart_spec s (hs s hsmem) startKey
  obtain ⟨hlen, hlow, hhigh⟩ := hspec
  refine ⟨rfl, hlen, ?_, ?_⟩
  · intro j hj
    unfold lowerOK
    rw [hlow j hj]
    rfl
  · intro r hr
    have hidx : s.findStartKeyInclusivePos startKey < s.length :=
      (List.getElem?_eq_some.mp hr).1
    have := hhigh _ (le_refl _) hidx
    unfold lowerOK
    have hkey : keyAt s (s.findStartKeyInclusivePos startKey) = r.key := by
      unfold keyAt
      rw [hr]
    rw [hkey] at this
    rw [this]
    rfl

theorem frontierLt_none (k : Bytes) : frontierLt none k = true := rfl

theorem frontierLt_some (fk k : Bytes) : frontierLt (some fk) k = bytesLt fk k := rfl

theorem lowerOK_eq_true_iff {sk : Bytes} {f : Option Bytes} {k : Bytes} :
    lowerOK sk f k = true ↔ bytesLe sk k = true ∧ frontierLt f k = true := by
  unfold lowerOK
  rw [Bool.and_eq_true]

theorem lowerOK_le_start {sk : Bytes} {f : Option Bytes} {k : Bytes}
    (h : lowerOK sk f k = true) : bytesLe sk k = true :=
  (lowerOK_eq_true_iff.mp h).1

theorem lowerOK_frontier {sk : Bytes} {fk k : Bytes}
    (h : lowerOK sk (some fk) k = true) : bytesLt fk k = true :=
  (lowerOK_eq_true_iff.mp h).2

/-- Keys at or below the frontier of a new window `(sk, some k)` fail the
window test, provided `k` itself passes the old window `(sk, f)`. -/
theorem lowerOK_advance_false {sk : Bytes} {f : Option Bytes} {k x : Bytes}
    (hold : lowerOK sk f x = false) (hfk : lowerOK sk f k = true) :
    lowerOK sk (some k) x = false := by
  unfold lowerOK at hold ⊢
  cases hsx : bytesLe sk x with
  | false => simp [hsx]
  | true =>
    rw [hsx] at hold
    simp only [Bool.true_and] at hold ⊢
    cases f with
    | none => rw [frontierLt_none] at hold; simp at hold
    | some fk =>
      rw [frontierLt_some] at hold
      have hxfk : bytesLe x fk = true := bytesLe_of_not_lt (by simp [hold])
      have hfkk : bytesLt fk k = true := lowerOK_frontier hfk
      have hxk : bytesLt x k = true := bytesLt_of_le_of_lt hxfk hfkk
      rw [frontierLt_some, bytesLt_eq_not_le]
      have := bytesLe_of_lt hxk
      simp [this]

/-- A cursor aligned at window `(sk, f)`, in a strictly sorted segment
that holds key `k` at position `j`, has not passed `j` when `k` is in the
window. -/
theorem alignedCursor_le_pos {sk : Bytes} {f : Option Bytes} {s : Segment}
    {c : Cursor} (hal : AlignedCursor sk f s c) {j : Nat} (hj : j < s.length)
    {k : Bytes} (hkey : keyAt s j = k) (hk : lowerOK sk f k = true) :
    c.idx ≤ j := by
  by_contra hc
  have := hal.2.2.1 j (by omega)
  rw [hkey, hk] at this
  exact absurd this (by simp)

/-- Under alignment, when key `k` is the least in-window in-range key of
the whole stack: a cursor over a segment holding `k` sits exactly on the
record for `k`. -/
theorem alignedCursor_on_key {sk : Bytes} {f : Option Bytes} {s : Segment}
    {c : Cursor} {e : Option Bytes} {k : Bytes} {r : Record}
    (hs : SegLt s) (hal : AlignedCursor sk f s c)
    (hget : s.getKey k = some r)
    (hk : lowerOK sk f k = true) (hbe : belowEnd e k = true)
    (hleast : ∀ r' ∈ s, lowerOK sk f r'.key = true →
      belowEnd e r'.key = true → bytesLe k r'.key = true) :
    c.currentRecord e = some r := by
  obtain ⟨hmem, hrkey⟩ := getKey_mem_of_eq_some hget
  obtain ⟨j, hj, hjr⟩ := List.getElem_of_mem hmem
  have hkj : keyAt s j = k := by rw [keyAt_of_getElem hj, hjr, hrkey]
  have hidxj : c.idx ≤ j := alignedCursor_le_pos hal hj hkj hk
  have hidxlen : c.idx < s.length := by omega
  have hseg := hal.1
  have hre : s[c.idx]? = some s[c.idx] := List.getElem?_eq_getElem hidxlen
  have hcurOK := hal.2.2.2 s[c.idx] hre
  have hcurkey_le : bytesLe (keyAt s c.idx) k = true := by
    rw [← hkj]
    exact segLe_keyAt_mono (SegLe_of_SegLt hs) hidxj hj
  have hcurkey_at : keyAt s c.idx = s[c.idx].key := keyAt_of_getElem hidxlen
  have hcur_belowEnd : belowEnd e s[c.idx].key = true := by
    cases e with
    | none => rfl
    | some ev =>
      unfold belowEnd at hbe ⊢
      rw [← hcurkey_at]
      exact bytesLt_of_le_of_lt hcurkey_le hbe
  have hkle : bytesLe k s[c.idx].key = true :=
    hleast s[c.idx] (List.getElem_mem hidxlen) hcurOK hcur_belowEnd
  have hkeq : s[c.idx].key = k :=
    bytesLe_antisymm (hcurkey_at ▸ hcurkey_le) hkle
  have hij : c.idx = j := by
    rcases Nat.eq_or_lt_of_le hidxj with he | hlt
    · exact he
    · have := segLt_keyAt_strictMono hs hlt hj
      rw [hkj] at this
      rw [hcurkey_at, hkeq] at this
      rw [bytesLt_irrefl] at this
      exact absurd this (by simp)
  have hcidx : s[c.idx]? = some r := by
    rw [hij, List.getElem?_eq_getElem hj, hjr]
  unfold Cursor.currentRecord
  rw [hseg, hcidx]
  show (if belowEnd e r.key = true then some r else none) = some r
  rw [hrkey]
  simp [hbe]

theorem forall₂_mem_left {α β} {R : α → β → Prop} {l₁ : List α} {l₂ : List β}
    (h : List.Forall₂ R l₁ l₂) {a : α} (ha : a ∈ l₁) : ∃ b ∈ l₂, R a b := by
  induction h with
  | nil => simp at ha
  | cons hR _ ih =>
    rcases List.mem_cons.mp ha with he | hm
    · subst he; exact ⟨_, List.mem_cons_self _ _, hR⟩
    · obtain ⟨b, hb, hab⟩ := ih hm
      exact ⟨b, List.mem_cons_of_mem _ hb, hab⟩

theorem alignedCursor_not_on_key {s : Segment} {c : Cursor} {e : Option Bytes}
    {k : Bytes} (hs : SegLt s) (hseg : c.seg = s) (hget : s.getKey k = none) :
    ∀ r, c.currentRecord e = some r → r.key ≠ k := by
  intro r hcur hkey
  have hg := (currentRecord_eq_some_iff.mp hcur).1
  rw [hseg] at hg
  have hmem : r ∈ s := List.getElem?_mem hg
  have := getKey_eq_some_of_mem hs hmem hkey
  rw [hget] at this
  exact Option.noConfusion this

theorem aligned_records_on_key_aux {sk : Bytes} {f : Option Bytes}
    {e : Option Bytes} {k : Bytes} :
    ∀ (ss : List Segment) (cs : List Cursor),
    List.Forall₂ (AlignedCursor sk f) ss cs →
    (∀ s ∈ ss, SegLt s) →
    lowerOK sk f k = true → belowEnd e k = true →
    (∀ s ∈ ss, ∀ r' ∈ s, lowerOK sk f r'.key = true → belowEnd e r'.key = true →
      bytesLe k r'.key = true) →
    (cs.filterMap (fun c => c.currentRecord e)).filter (fun r => r.key == k)
      = ss.filterMap (fun s => s.getKey k) := by
  intro ss cs hal
  induction hal with
  | nil => intro _ _ _ _; simp
  | cons hR hrest ih =>
    rename_i s c ss' cs'
    intro hss hk hbe hleast
    have hss' : ∀ s' ∈ ss', SegLt s' := fun s' hs' => hss s' (List.mem_cons_of_mem _ hs')
    have hleast' : ∀ s' ∈ ss', ∀ r' ∈ s', lowerOK sk f r'.key = true →
        belowEnd e r'.key = true → bytesLe k r'.key = true :=
      fun s' hs' => hleast s' (List.mem_cons_of_mem _ hs')
    have htail := ih hss' hk hbe hleast'
    have hsStrict : SegLt s := hss s (List.mem_cons_self _ _)
    cases hget : s.getKey k with
    | some r =>
      have hcur : c.currentRecord e = some r :=
        alignedCursor_on_key hsStrict hR hget hk hbe
          (hleast s (List.mem_cons_self _ _))
      have hrkey : r.key = k := (getKey_mem_of_eq_some hget).2
      rw [List.filterMap_cons, List.filterMap_cons, hcur, hget]
      simp only
      rw [List.filter_cons_of_pos (by simp [hrkey])]
      rw [htail]
    | none =>
      rw [List.filterMap_cons, List.filterMap_cons, hget]
      cases hcur : c.currentRecord e with
      | none =>
        simp only
        rw [htail]
      | some r' =>
        have hne := alignedCursor_not_on_key hsStrict hR.1 hget r' hcur
        simp only
        rw [List.filter_cons_of_neg (by simp [hne])]
        rw [htail]

theorem aligned_recordsOnKey {sk : Bytes} {f : Option Bytes} {ss : SegmentStack}
    {it : Iter} {k : Bytes}
    (hss : ∀ s ∈ ss, SegLt s) (hal : Aligned sk f ss it)
    (hk : lowerOK sk f k = true) (hbe : belowEnd it.endKeyExclusive k = true)
    (hleast : ∀ x ∈ stackKeys ss, lowerOK sk f x = true →
      belowEnd it.endKeyExclusive x = true → bytesLe k x = true) :
    recordsOnKey it k = recordsForKey ss k := by
  unfold recordsOnKey validRecords recordsForKey
  apply aligned_records_on_key_aux ss it.cursors hal hss hk hbe
  intro s hs r' hr' hlo hbe'
  exact hleast r'.key (mem_stackKeys.mpr ⟨s, hs, r', hr', rfl⟩) hlo hbe'

theorem aligned_topKey_some {sk : Bytes} {f : Option Bytes} {ss : SegmentStack}
    {it : Iter} {k : Bytes}
    (hss : ∀ s ∈ ss, SegLt s) (hal : Aligned sk f ss it)
    (hkmem : k ∈ stackKeys ss)
    (hk : lowerOK sk f k = true) (hbe : belowEnd it.endKeyExclusive k = true)
    (hleast : ∀ x ∈ stackKeys ss, lowerOK sk f x = true →
      belowEnd it.endKeyExclusive x = true → bytesLe k x = true) :
    topKey it = some k := by
  obtain ⟨s, hsmem, r, hrmem, hrkey⟩ := mem_stackKeys.mp hkmem
  have hget : s.getKey k = some r :=
    getKey_eq_some_of_mem (hss s hsmem) hrmem hrkey
  obtain ⟨c, hc, hR⟩ := forall₂_mem_left hal hsmem
  have hcur : c.currentRecord it.endKeyExclusive = some r := by
    apply alignedCursor_on_key (hss s hsmem) hR hget hk hbe
    intro r' hr' hlo hbe'
    exact hleast r'.key (mem_stackKeys.mpr ⟨s, hsmem, r', hr', rfl⟩) hlo hbe'
  have hrmem' : r ∈ validRecords it := by
    unfold validRecords
    exact List.mem_filterMap.mpr ⟨c, hc, hcur⟩
  unfold topKey
  apply minKeyOf_eq_some
  · exact List.mem_map.mpr ⟨r, hrmem', hrkey⟩
  · intro x hx
    obtain ⟨r', hr', hxkey⟩ := List.mem_map.mp hx
    unfold validRecords at hr'
    obtain ⟨c', hc', hcur'⟩ := List.mem_filterMap.mp hr'
    obtain ⟨s', hs', hR'⟩ := forall₂_mem_right hal hc'
    obtain ⟨hg', hbe'⟩ := currentRecord_eq_some_iff.mp hcur'
    rw [hR'.1] at hg'
    have hlo' := hR'.2.2.2 r' hg'
    have hmem' : r' ∈ s' := List.getElem?_mem hg'
    subst hxkey
    exact hleast r'.key (mem_stackKeys.mpr ⟨s', hs', r', hmem', rfl⟩) hlo' hbe'

/-- Under alignment, any live cursor key is an in-window in-range stack key. -/
theorem aligned_valid_key_facts {sk : Bytes} {f : Option Bytes}
    {ss : SegmentStack} {it : Iter}
    (hal : Aligned sk f ss it) {r : Record} (hr : r ∈ validRecords it) :
    r.key ∈ stackKeys ss ∧ lowerOK sk f r.key = true ∧
      belowEnd it.endKeyExclusive r.key = true := by
  unfold validRecords at hr
  obtain ⟨c, hc, hcur⟩ := List.mem_filterMap.mp hr
  obtain ⟨s, hs, hR⟩ := forall₂_mem_right hal hc
  obtain ⟨hg, hbe⟩ := currentRecord_eq_some_iff.mp hcur
  rw [hR.1] at hg
  exact ⟨mem_stackKeys.mpr ⟨s, hs, r, List.getElem?_mem hg, rfl⟩,
    hR.2.2.2 r hg, hbe⟩

theorem mem_rangeKeys {ss : SegmentStack} {sk : Bytes} {f : Option Bytes}
    {e : Option Bytes} {x : Bytes} :
    x ∈ rangeKeys ss sk f e ↔
      x ∈ stackKeys ss ∧ lowerOK sk f x = true ∧ belowEnd e x = true := by
  unfold rangeKeys
  rw [List.mem_filter, Bool.and_eq_true]

theorem rangeKeys_sorted (ss : SegmentStack) (sk : Bytes) (f : Option Bytes)
    (e : Option Bytes) :
    List.Pairwise (fun a b => bytesLt a b = true) (rangeKeys ss sk f e) :=
  (stackKeys_sorted ss).filter _

theorem rangeKeys_head_least {ss : SegmentStack} {sk : Bytes} {f : Option Bytes}
    {e : Option Bytes} {k : Bytes} {rest : List Bytes}
    (h : rangeKeys ss sk f e = k :: rest) :
    ∀ x ∈ rangeKeys ss sk f e, bytesLe k x = true := by
  have hs := rangeKeys_sorted ss sk f e
  rw [h] at hs
  rw [h]
  intro x hx
  rcases List.mem_cons.mp hx with he | hm
  · subst he; simp
  · exact bytesLe_of_lt ((List.pairwise_cons.mp hs).1 x hm)

theorem rangeKeys_tail {ss : SegmentStack} {sk : Bytes} {f : Option Bytes}
    {e : Option Bytes} {k : Bytes} {rest : List Bytes}
    (h : rangeKeys ss sk f e = k :: rest) :
    rangeKeys ss sk (some k) e = rest := by
  have hkmem : k ∈ rangeKeys ss sk f e := by rw [h]; exact List.mem_cons_self _ _
  obtain ⟨_, hlo, hbe⟩ := mem_rangeKeys.mp hkmem
  have hfr : frontierLt f k = true := (lowerOK_eq_true_iff.mp hlo).2
  have hpt : ∀ x ∈ stackKeys ss,
      (lowerOK sk (some k) x && belowEnd e x)
        = (bytesLt k x && (lowerOK sk f x && belowEnd e x)) := by
    intro x _
    unfold lowerOK
    rw [frontierLt_some]
    cases hlt : bytesLt k x with
    | false => simp [hlt]
    | true =>
      have hfx : frontierLt f x = true := by
        cases f with
        | none => rfl
        | some fk =>
          rw [frontierLt_some]
          rw [frontierLt_some] at hfr
          exact bytesLt_trans hfr hlt
      have hsx : bytesLe sk x = true :=
        bytesLe_trans (lowerOK_le_start hlo) (bytesLe_of_lt hlt)
      simp [hlt, hfx, hsx]
  unfold rangeKeys
  rw [List.filter_congr hpt, ← List.filter_filter]
  have : List.filter (fun x => lowerOK sk f x && belowEnd e x) (stackKeys ss)
      = k :: rest := h
  rw [this]
  rw [List.filter_cons_of_neg (by simp [bytesLt_irrefl])]
  rw [List.filter_eq_self.mpr]
  have hs := rangeKeys_sorted ss sk f e
  rw [h] at hs
  intro x hx
  exact (List.pairwise_cons.mp hs).1 x hx

theorem currentRecord_eq_none_cases {c : Cursor} {e : Option Bytes}
    (h : c.currentRecord e = none) :
    c.seg[c.idx]? = none ∨
      ∃ r, c.seg[c.idx]? = some r ∧ belowEnd e r.key = false := by
  unfold Cursor.currentRecord at h
  cases hg : c.seg[c.idx]? with
  | none => exact Or.inl rfl
  | some r =>
    rw [hg] at h
    have h' : (if belowEnd e r.key = true then some r else none) = none := h
    right
    refine ⟨r, rfl, ?_⟩
    by_cases hb : belowEnd e r.key = true
    · rw [if_pos hb] at h'
      exact absurd h' (by simp)
    · simpa using hb

theorem alignedCursor_advance {sk : Bytes} {f : Option Bytes} {k : Bytes}
    {e : Option Bytes} {s : Segment} {c : Cursor}
    (hs : SegLt s) (hal : AlignedCursor sk f s c)
    (hfk : lowerOK sk f k = true) (hbe : belowEnd e k = true)
    (hmin : ∀ r, c.currentRecord e = some r → bytesLe k r.key = true) :
    AlignedCursor sk (some k) s
      (match c.currentRecord e with
       | some r => if r.key == k then { c with idx := c.idx + 1 } else c
       | none => c) := by
  obtain ⟨hseg, hlen, hlow, hcur⟩ := hal
  have hlow' : ∀ j, j < c.idx → lowerOK sk (some k) (keyAt s j) = false :=
    fun j hj => lowerOK_advance_false (hlow j hj) hfk
  cases hc : c.currentRecord e with
  | none =>
    show AlignedCursor sk (some k) s c
    refine ⟨hseg, hlen, hlow', ?_⟩
    intro r hr
    rcases currentRecord_eq_none_cases hc with hg | ⟨r₀, hg₀, hb₀⟩
    · rw [hseg] at hg
      rw [hg] at hr
      exact Option.noConfusion hr
    · rw [hseg] at hg₀
      rw [hg₀] at hr
      have hr0 : r₀ = r := by
        have := hr
        simp only [Option.some.injEq] at this
        exact this
      subst hr0
      have hle : bytesLe sk r₀.key = true := lowerOK_le_start (hcur r₀ hg₀)
      cases e with
      | none => exact Bool.noConfusion hb₀
      | some ev =>
        have hb₀' : bytesLt r₀.key ev = false := hb₀
        have hbe' : bytesLt k ev = true := hbe
        have hevle : bytesLe ev r₀.key = true := bytesLe_of_not_lt (by simp [hb₀'])
        have hlt : bytesLt k r₀.key = true := bytesLt_of_lt_of_le hbe' hevle
        apply lowerOK_eq_true_iff.mpr
        rw [frontierLt_some]
        exact ⟨hle, hlt⟩
  | some r =>
    have hg : c.seg[c.idx]? = some r := (currentRecord_eq_some_iff.mp hc).1
    have hidxlen : c.idx < c.seg.length := (List.getElem?_eq_some.mp hg).1
    by_cases hbeq : (r.key == k) = true
    · have hrk : r.key = k := by simpa using hbeq
      show AlignedCursor sk (some k) s
        (if (r.key == k) = true then { c with idx := c.idx + 1 } else c)
      rw [if_pos hbeq]
      refine ⟨hseg, ?_, ?_, ?_⟩
      · simp only
        rw [← hseg]
        omega
      · intro j hj
        simp only at hj
        rcases Nat.lt_or_ge j c.idx with hji | hji
        · exact hlow' j hji
        · have hj' : j = c.idx := by omega
          subst hj'
          have hkj : keyAt s c.idx = k := by
            rw [← hseg, keyAt_of_getElem hidxlen]
            rw [(List.getElem?_eq_some.mp hg).2, hrk]
          rw [hkj]
          unfold lowerOK
          rw [frontierLt_some, bytesLt_irrefl]
          simp
      · intro r' hr'
        simp only at hr'
        have hlen' : c.idx + 1 < s.length := by
          rw [← hseg]
          exact (List.getElem?_eq_some.mp (hseg ▸ hr')).1
        have hstrict : bytesLt (keyAt s c.idx) (keyAt s (c.idx + 1)) = true :=
          segLt_keyAt_strictMono hs (by omega) hlen'
        have hkidx : keyAt s c.idx = k := by
          rw [← hseg, keyAt_of_getElem hidxlen, (List.getElem?_eq_some.mp hg).2, hrk]
        have hkidx1 : keyAt s (c.idx + 1) = r'.key := by
          unfold keyAt
          rw [hr']
        rw [hkidx, hkidx1] at hstrict
        apply lowerOK_eq_true_iff.mpr
        rw [frontierLt_some]
        exact ⟨bytesLe_trans (lowerOK_le_start hfk) (bytesLe_of_lt hstrict), hstrict⟩
    · show AlignedCursor sk (some k) s
        (if (r.key == k) = true then { c with idx := c.idx + 1 } else c)
      rw [if_neg hbeq]
      refine ⟨hseg, hlen, hlow', ?_⟩
      intro r' hr'
      have hr0 : r' = r := by
        rw [hseg] at hg
        rw [hg] at hr'
        simp only [Option.some.injEq] at hr'
        exact hr'.symm
      subst hr0
      have hle : bytesLe sk r'.key = true := lowerOK_le_start (hcur r' (hseg ▸ hg))
      have hkle : bytesLe k r'.key = true := hmin r' hc
      have hne : k ≠ r'.key := by
        intro he
        rw [← he] at hbeq
        simp at hbeq
      apply lowerOK_eq_true_iff.mpr
      rw [frontierLt_some]
      exact ⟨hle, bytesLt_of_le_of_ne hkle hne⟩

theorem aligned_advance {sk : Bytes} {f : Option Bytes} {ss : SegmentStack}
    {it : Iter} {k : Bytes}
    (hss : ∀ s ∈ ss, SegLt s) (hal : Aligned sk f ss it)
    (hk : topKey it = some k) :
    Aligned sk (some k) ss (advance it k) := by
  obtain ⟨c₀, hc₀, r₀, hcr₀, hkey₀⟩ := topKey_some_exists hk
  have hr₀mem : r₀ ∈ validRecords it := List.mem_filterMap.mpr ⟨c₀, hc₀, hcr₀⟩
  obtain ⟨_, hfk, hbe⟩ := aligned_valid_key_facts hal hr₀mem
  rw [hkey₀] at hfk hbe
  unfold Aligned
  rw [advance_cursors]
  apply forall₂_map_imp hal
  intro s c hsmem hcmem hR
  apply alignedCursor_advance (hss s hsmem) hR hfk hbe
  intro r hcur
  exact topKey_le_validKeys hk r (List.mem_filterMap.mpr ⟨c, hcmem, hcur⟩)

/-! ## Master theorems: iteration equals the keywise denotation -/

theorem aligned_topKey_none_of_rangeKeys_nil {sk : Bytes} {f : Option Bytes}
    {ss : SegmentStack} {it : Iter}
    (hal : Aligned sk f ss it)
    (hrk : rangeKeys ss sk f it.endKeyExclusive = []) :
    topKey it = none := by
  cases htk : topKey it with
  | none => rfl
  | some k =>
    exfalso
    obtain ⟨c, hc, r, hcr, hkey⟩ := topKey_some_exists htk
    have hrm : r ∈ validRecords it := List.mem_filterMap.mpr ⟨c, hc, hcr⟩
    obtain ⟨hks, hlo, hbe⟩ := aligned_valid_key_facts hal hrm
    have : r.key ∈ rangeKeys ss sk f it.endKeyExclusive :=
      mem_rangeKeys.mpr ⟨hks, hlo, hbe⟩
    rw [hrk] at this
    simp at this

theorem rangeKeys_head_facts {ss : SegmentStack} {sk : Bytes} {f : Option Bytes}
    {e : Option Bytes} {k : Bytes} {rest : List Bytes}
    (hrk : rangeKeys ss sk f e = k :: rest) :
    k ∈ stackKeys ss ∧ lowerOK sk f k = true ∧ belowEnd e k = true ∧
    (∀ x ∈ stackKeys ss, lowerOK sk f x = true → belowEnd e x = true →
      bytesLe k x = true) := by
  have hkmem : k ∈ rangeKeys ss sk f e := by
    rw [hrk]; exact List.mem_cons_self _ _
  obtain ⟨hks, hlo, hbe⟩ := mem_rangeKeys.mp hkmem
  refine ⟨hks, hlo, hbe, ?_⟩
  intro x hx hlox hbex
  exact rangeKeys_head_least hrk x (mem_rangeKeys.mpr ⟨hx, hlox, hbex⟩)

theorem recordsForKey_head {ss : SegmentStack} {k : Bytes}
    (hss : ∀ s ∈ ss, SegLt s) (hks : k ∈ stackKeys ss) :
    ∃ r rs, recordsForKey ss k = r :: rs ∧ r.key = k := by
  obtain ⟨s, hs, r0, hr0, hr0k⟩ := mem_stackKeys.mp hks
  have hget : s.getKey k = some r0 := getKey_eq_some_of_mem (hss s hs) hr0 hr0k
  have hmem : r0 ∈ recordsForKey ss k := by
    unfold recordsForKey
    exact List.mem_filterMap.mpr ⟨s, hs, hget⟩
  cases hr : recordsForKey ss k with
  | nil => rw [hr] at hmem; simp at hmem
  | cons r rs =>
    refine ⟨r, rs, rfl, ?_⟩
    have hrmem : r ∈ recordsForKey ss k := by
      rw [hr]; exact List.mem_cons_self _ _
    unfold recordsForKey at hrmem
    obtain ⟨s', _, hget'⟩ := List.mem_filterMap.mp hrmem
    exact (getKey_mem_of_eq_some hget').2

theorem masterRaw : ∀ (n : Nat) (it : Iter) (ss : SegmentStack) (sk : Bytes)
    (f : Option Bytes), remaining it ≤ n → (∀ s ∈ ss, SegLt s) →
    Aligned sk f ss it →
    rawIterate it = rawDenote ss sk f it.endKeyExclusive := by
  intro n
  induction n with
  | zero =>
    intro it ss sk f hn hss hal
    have htop : topKey it = none := remaining_eq_zero_topKey (by omega)
    rw [rawIterate_done (rawCurrent_eq_none_iff.mpr htop)]
    unfold rawDenote
    cases hrk : rangeKeys ss sk f it.endKeyExclusive with
    | nil => rfl
    | cons k rest =>
      exfalso
      obtain ⟨hks, hlo, hbe, hleast⟩ := rangeKeys_head_facts hrk
      have := aligned_topKey_some hss hal hks hlo hbe hleast
      rw [htop] at this
      exact Option.noConfusion this
  | succ n ih =>
    intro it ss sk f hn hss hal
    cases hrk : rangeKeys ss sk f it.endKeyExclusive with
    | nil =>
      have htop := aligned_topKey_none_of_rangeKeys_nil hal hrk
      rw [rawIterate_done (rawCurrent_eq_none_iff.mpr htop)]
      unfold rawDenote
      rw [hrk]
      rfl
    | cons k rest =>
      obtain ⟨hks, hlo, hbe, hleast⟩ := rangeKeys_head_facts hrk
      have htop : topKey it = some k :=
        aligned_topKey_some hss hal hks hlo hbe hleast
      have hrec : recordsOnKey it k = recordsForKey ss k :=
        aligned_recordsOnKey hss hal hlo hbe hleast
      obtain ⟨r, rs, hhead, hrkey⟩ := recordsForKey_head hss hks
      have hcur : rawCurrent it = some r := by
        unfold rawCurrent
        rw [htop]
        show (validRecords it).find? (fun r' => r'.key == k) = some r
        rw [find?_eq_head?_filter]
        have hfil : (validRecords it).filter (fun r' => r'.key == k)
            = recordsOnKey it k := rfl
        rw [hfil, hrec, hhead]
        rfl
      rw [rawIterate_yield hcur, hrkey]
      have hsub := ih (advance it k) ss sk (some k)
        (by have := remaining_advance_lt htop; omega) hss
        (aligned_advance hss hal htop)
      rw [advance_endKey] at hsub
      rw [hsub]
      unfold rawDenote
      rw [hrk, List.filterMap_cons, hhead, rangeKeys_tail hrk]
      rfl

theorem masterPub : ∀ (n : Nat) (it : Iter) (ss : SegmentStack) (sk : Bytes)
    (f : Option Bytes), remaining it ≤ n → (∀ s ∈ ss, SegLt s) →
    Aligned sk f ss it →
    pubIterate it = pubDenote it.mo ss sk f it.endKeyExclusive := by
  intro n
  induction n with
  | zero =>
    intro it ss sk f hn hss hal
    have htop : topKey it = none := remaining_eq_zero_topKey (by omega)
    rw [pubIterate_done htop]
    unfold pubDenote
    cases hrk : rangeKeys ss sk f it.endKeyExclusive with
    | nil => rfl
    | cons k rest =>
      exfalso
      obtain ⟨hks, hlo, hbe, hleast⟩ := rangeKeys_head_facts hrk
      have := aligned_topKey_some hss hal hks hlo hbe hleast
      rw [htop] at this
      exact Option.noConfusion this
  | succ n ih =>
    intro it ss sk f hn hss hal
    cases hrk : rangeKeys ss sk f it.endKeyExclusive with
    | nil =>
      have htop := aligned_topKey_none_of_rangeKeys_nil hal hrk
      rw [pubIterate_done htop]
      unfold pubDenote
      rw [hrk]
      rfl
    | cons k rest =>
      obtain ⟨hks, hlo, hbe, hleast⟩ := rangeKeys_head_facts hrk
      have htop : topKey it = some k :=
        aligned_topKey_some hss hal hks hlo hbe hleast
      have hrec : recordsOnKey it k = recordsForKey ss k :=
        aligned_recordsOnKey hss hal hlo hbe hleast
      have hsub := ih (advance it k) ss sk (some k)
        (by have := remaining_advance_lt htop; omega) hss
        (aligned_advance hss hal htop)
      rw [advance_endKey, advance_mo] at hsub
      have htail : (rangeKeys ss sk (some k) it.endKeyExclusive).filterMap
          (pubEntry it.mo ss) = pubDenote it.mo ss sk (some k) it.endKeyExclusive := rfl
      cases hres : resolveRecords it.mo k (recordsForKey ss k) with
      | ok ov =>
        cases ov with
        | none =>
          rw [pubIterate_skip htop (by rw [hrec]; exact hres), hsub]
          unfold pubDenote
          rw [hrk, List.filterMap_cons]
          have hpe : pubEntry it.mo ss k = none := by
            unfold pubEntry
            rw [hres]
          rw [hpe]
          rw [rangeKeys_tail hrk]
        | some v =>
          rw [pubIterate_yield htop (by rw [hrec]; exact hres), hsub]
          unfold pubDenote
          rw [hrk, List.filterMap_cons]
          have hpe : pubEntry it.mo ss k = some (Except.ok (k, v)) := by
            unfold pubEntry
            rw [hres]
          rw [hpe]
          rw [rangeKeys_tail hrk]
      | error err =>
        rw [pubIterate_err htop (by rw [hrec]; exact hres), hsub]
        unfold pubDenote
        rw [hrk, List.filterMap_cons]
        have hpe : pubEntry it.mo ss k = some (Except.error err) := by
          unfold pubEntry
          rw [hres]
        rw [hpe]
        rw [rangeKeys_tail hrk]

/-- Raw iteration of a freshly started iterator over a stack of strictly
sorted segments enumerates, in ascending key order, the newest record of
every in-range key. -/
theorem rawIterate_startIterator (mo : Option MergeOperator) (ss : SegmentStack)
    (startKey e : Option Bytes) (hss : ∀ s ∈ ss, SegLt s) :
    rawIterate (startIterator mo ss startKey e)
      = rawDenote ss (startKey.getD []) none e := by
  have := masterRaw (remaining (startIterator mo ss startKey e))
    (startIterator mo ss startKey e) ss (startKey.getD []) none (le_refl _) hss
    (startIterator_aligned mo ss startKey e
      (fun s hs => SegLe_of_SegLt (hss s hs)))
  exact this

/-- Public iteration of a freshly started iterator over a stack of
strictly sorted segments yields, per ascending in-range key, the resolved
outcome of that key's records, skipping deletions. -/
theorem pubIterate_startIterator (mo : Option MergeOperator) (ss : SegmentStack)
    (startKey e : Option Bytes) (hss : ∀ s ∈ ss, SegLt s) :
    pubIterate (startIterator mo ss startKey e)
      = pubDenote mo ss (startKey.getD []) none e := by
  have := masterPub (remaining (startIterator mo ss startKey e))
    (startIterator mo ss startKey e) ss (startKey.getD []) none (le_refl _) hss
    (startIterator_aligned mo ss startKey e
      (fun s hs => SegLe_of_SegLt (hss s hs)))
  exact this

/-! ## Merger: per-key resolution is preserved -/

theorem collectMerge_append_of_base {xs ys : List Record} {ops : List Bytes}
    {b : Option Bytes} (h : collectMerge xs = (ops, some b)) :
    collectMerge (xs ++ ys) = (ops, some b) := by
  induction xs generalizing ops with
  | nil => simp [collectMerge] at h
  | cons r rest ih =>
    rw [List.cons_append]
    cases hop : r.op with
    | merge =>
      simp only [collectMerge, hop] at h ⊢
      cases hrest : collectMerge rest with
      | mk ops' b' =>
        rw [hrest] at h
        simp only at h
        injection h with hops hb
        subst hb
        rw [ih hrest]
        simp only
        rw [hops]
    | set =>
      simp only [collectMerge, hop] at h ⊢
      exact h
    | del =>
      simp only [collectMerge, hop] at h ⊢
      exact h

theorem collectMerge_append_of_none {xs : List Record} {ops : List Bytes}
    (h : collectMerge xs = (ops, none)) (ys : List Record) :
    collectMerge (xs ++ ys) = ((collectMerge ys).1 ++ ops, (collectMerge ys).2) := by
  induction xs generalizing ops with
  | nil =>
    simp only [collectMerge] at h
    injection h with hops hb
    rw [List.nil_append, ← hops, List.append_nil]
  | cons r rest ih =>
    rw [List.cons_append]
    cases hop : r.op with
    | merge =>
      simp only [collectMerge, hop] at h ⊢
      cases hrest : collectMerge rest with
      | mk ops' b' =>
        rw [hrest] at h
        simp only at h
        injection h with hops hb
        subst hb
        rw [ih hrest]
        simp only
        rw [← hops, List.append_assoc]
    | set => simp [collectMerge, hop] at h
    | del => simp [collectMerge, hop] at h

theorem foldl_partial_none (m : MergeOperator) (k : Bytes) (os : List Bytes) :
    os.foldl (fun acc oper => acc.bind (fun a => m.partialMerge k a oper)) none = none := by
  induction os with
  | nil => rfl
  | cons o os ih => simp only [List.foldl_cons, Option.bind]; exact ih

theorem partialAll_fullMerge_aux (m : MergeOperator)
    (hcoh : ∀ k ex pre a b post c, m.partialMerge k a b = some c →
      m.fullMerge k ex (pre ++ a :: b :: post) = m.fullMerge k ex (pre ++ c :: post))
    (k : Bytes) (ex : Option Bytes) :
    ∀ (os : List Bytes) (o : Bytes) (c : Bytes) (pre : List Bytes),
    os.foldl (fun acc oper => acc.bind (fun a => m.partialMerge k a oper)) (some o) = some c →
    m.fullMerge k ex (pre ++ o :: os) = m.fullMerge k ex (pre ++ [c]) := by
  intro os
  induction os with
  | nil =>
    intro o c pre h
    simp only [List.foldl_nil, Option.some.injEq] at h
    rw [h]
  | cons o₂ rest ih =>
    intro o c pre h
    simp only [List.foldl_cons] at h
    cases hp : m.partialMerge k o o₂ with
    | none =>
      rw [show (some o).bind (fun a => m.partialMerge k a o₂) = none by
        simp [Option.bind, hp]] at h
      rw [foldl_partial_none] at h
      exact Option.noConfusion h
    | some c₂ =>
      rw [show (some o).bind (fun a => m.partialMerge k a o₂) = some c₂ by
        simp [Option.bind, hp]] at h
      have hstep := hcoh k ex pre o o₂ rest c₂ hp
      rw [hstep]
      exact ih c₂ c pre h

theorem partialAll_fullMerge (m : MergeOperator)
    (hcoh : ∀ k ex pre a b post c, m.partialMerge k a b = some c →
      m.fullMerge k ex (pre ++ a :: b :: post) = m.fullMerge k ex (pre ++ c :: post))
    (k : Bytes) (ex : Option Bytes) {ops : List Bytes} {c : Bytes}
    (h : partialAll m k ops = some c) (pre : List Bytes) :
    m.fullMerge k ex (pre ++ ops) = m.fullMerge k ex (pre ++ [c]) := by
  cases ops with
  | nil => simp [partialAll] at h
  | cons o os =>
    unfold partialAll at h
    exact partialAll_fullMerge_aux m hcoh k ex os o c pre h

theorem resolveRecords_nil (mo : Option MergeOperator) (k : Bytes) :
    resolveRecords mo k [] = Except.ok none := rfl

theorem resolveRecords_set {r : Record} (mo : Option MergeOperator) (k : Bytes)
    (rs : List Record) (hop : r.op = Op.set) :
    resolveRecords mo k (r :: rs) = Except.ok (some r.val) := by
  simp only [resolveRecords, hop]

theorem resolveRecords_del {r : Record} (mo : Option MergeOperator) (k : Bytes)
    (rs : List Record) (hop : r.op = Op.del) :
    resolveRecords mo k (r :: rs) = Except.ok none := by
  simp only [resolveRecords, hop]

theorem resolveRecords_merge {r : Record} (m : MergeOperator) (k : Bytes)
    (rs : List Record) (hop : r.op = Op.merge) {ops : List Bytes}
    {base : Option (Option Bytes)} (hcm : collectMerge (r :: rs) = (ops, base)) :
    resolveRecords (some m) k (r :: rs)
      = match m.fullMerge k base.join ops with
        | some v => Except.ok (some v)
        | none => Except.error Err.mergeOperatorFullMergeFailed := by
  simp only [resolveRecords, hop, hcm]

theorem resolveRecords_merge_nil {r : Record} (k : Bytes) (rs : List Record)
    (hop : r.op = Op.merge) :
    resolveRecords none k (r :: rs) = Except.error Err.mergeOperatorNil := by
  simp only [resolveRecords, hop]

theorem emitKey_nil (m : MergeOperator) (b : Bool) (k : Bytes) :
    emitKey m b k [] = Except.ok none := rfl

theorem emitKey_set {r : Record} (m : MergeOperator) (b : Bool) (k : Bytes)
    (rs : List Record) (hop : r.op = Op.set) :
    emitKey m b k (r :: rs) = Except.ok (some ⟨Op.set, k, r.val⟩) := by
  simp only [emitKey, hop]

theorem emitKey_del {r : Record} (m : MergeOperator) (b : Bool) (k : Bytes)
    (rs : List Record) (hop : r.op = Op.del) :
    emitKey m b k (r :: rs)
      = Except.ok (if b then none else some ⟨Op.del, k, []⟩) := by
  simp only [emitKey, hop]

theorem emitKey_del_bottom {r : Record} (m : MergeOperator) {b : Bool} (k : Bytes)
    (rs : List Record) (hop : r.op = Op.del) (hb : b = true) :
    emitKey m b k (r :: rs) = Except.ok none := by
  rw [emitKey_del m b k rs hop, hb, if_pos rfl]

theorem emitKey_del_keep {r : Record} (m : MergeOperator) {b : Bool} (k : Bytes)
    (rs : List Record) (hop : r.op = Op.del) (hb : b = false) :
    emitKey m b k (r :: rs) = Except.ok (some ⟨Op.del, k, []⟩) := by
  rw [emitKey_del m b k rs hop, hb, if_neg (by simp)]

theorem emitKey_merge_base {r : Record} (m : MergeOperator) (b : Bool) (k : Bytes)
    (rs : List Record) (hop : r.op = Op.merge) {ops : List Bytes} {bb : Option Bytes}
    (hcm : collectMerge (r :: rs) = (ops, some bb)) {v : Bytes}
    (hfm : m.fullMerge k bb ops = some v) :
    emitKey m b k (r :: rs) = Except.ok (some ⟨Op.set, k, v⟩) := by
  simp only [emitKey, hop, hcm, hfm]

theorem emitKey_merge_base_fail {r : Record} (m : MergeOperator) (b : Bool) (k : Bytes)
    (rs : List Record) (hop : r.op = Op.merge) {ops : List Bytes} {bb : Option Bytes}
    (hcm : collectMerge (r :: rs) = (ops, some bb))
    (hfm : m.fullMerge k bb ops = none) :
    emitKey m b k (r :: rs) = Except.error Err.mergeOperatorFullMergeFailed := by
  simp only [emitKey, hop, hcm, hfm]

theorem emitKey_merge_bottom {r : Record} (m : MergeOperator) {b : Bool} (k : Bytes)
    (rs : List Record) (hop : r.op = Op.merge) {ops : List Bytes}
    (hcm : collectMerge (r :: rs) = (ops, none)) (hb : b = true) {v : Bytes}
    (hfm : m.fullMerge k none ops = some v) :
    emitKey m b k (r :: rs) = Except.ok (some ⟨Op.set, k, v⟩) := by
  simp [emitKey, hop, hcm, hb, hfm]

theorem emitKey_merge_bottom_fail {r : Record} (m : MergeOperator) {b : Bool} (k : Bytes)
    (rs : List Record) (hop : r.op = Op.merge) {ops : List Bytes}
    (hcm : collectMerge (r :: rs) = (ops, none)) (hb : b = true)
    (hfm : m.fullMerge k none ops = none) :
    emitKey m b k (r :: rs) = Except.error Err.mergeOperatorFullMergeFailed := by
  simp [emitKey, hop, hcm, hb, hfm]

theorem emitKey_merge_defer {r : Record} (m : MergeOperator) {b : Bool} (k : Bytes)
    (rs : List Record) (hop : r.op = Op.merge) {ops : List Bytes}
    (hcm : collectMerge (r :: rs) = (ops, none)) (hb : b = false) {c : Bytes}
    (hpa : partialAll m k ops = some c) :
    emitKey m b k (r :: rs) = Except.ok (some ⟨Op.merge, k, c⟩) := by
  simp only [emitKey, hop, hcm, hb, if_neg (show ¬ (false = true) by simp), hpa]

theorem emitKey_merge_defer_fail {r : Record} (m : MergeOperator) {b : Bool} (k : Bytes)
    (rs : List Record) (hop : r.op = Op.merge) {ops : List Bytes}
    (hcm : collectMerge (r :: rs) = (ops, none)) (hb : b = false)
    (hpa : partialAll m k ops = none) :
    emitKey m b k (r :: rs) = Except.error Err.unimplemented := by
  simp only [emitKey, hop, hcm, hb, if_neg (show ¬ (false = true) by simp), hpa]

theorem emitKey_some_key {m : MergeOperator} {isBottom : Bool} {k : Bytes}
    {rs : List Record} {r : Record}
    (h : emitKey m isBottom k rs = Except.ok (some r)) : r.key = k := by
  cases rs with
  | nil => rw [emitKey_nil] at h; exact absurd h (by simp)
  | cons r0 rest =>
    cases hop : r0.op with
    | set =>
      rw [emitKey_set m isBottom k rest hop] at h
      simp only [Except.ok.injEq, Option.some.injEq] at h
      rw [← h]
    | del =>
      cases hb : isBottom with
      | true =>
        rw [emitKey_del_bottom m k rest hop hb] at h
        exact absurd h (by simp)
      | false =>
        rw [emitKey_del_keep m k rest hop hb] at h
        simp only [Except.ok.injEq, Option.some.injEq] at h
        rw [← h]
    | merge =>
      cases hcm : collectMerge (r0 :: rest) with
      | mk ops base =>
        cases base with
        | some bb =>
          cases hfm : m.fullMerge k bb ops with
          | none =>
            rw [emitKey_merge_base_fail m isBottom k rest hop hcm hfm] at h
            exact absurd h (by simp)
          | some v =>
            rw [emitKey_merge_base m isBottom k rest hop hcm hfm] at h
            simp only [Except.ok.injEq, Option.some.injEq] at h
            rw [← h]
        | none =>
          cases hb : isBottom with
          | true =>
            cases hfm : m.fullMerge k none ops with
            | none =>
              rw [emitKey_merge_bottom_fail m k rest hop hcm hb hfm] at h
              exact absurd h (by simp)
            | some v =>
              rw [emitKey_merge_bottom m k rest hop hcm hb hfm] at h
              simp only [Except.ok.injEq, Option.some.injEq] at h
              rw [← h]
          | false =>
            cases hpa : partialAll m k ops with
            | none =>
              rw [emitKey_merge_defer_fail m k rest hop hcm hb hpa] at h
              exact absurd h (by simp)
            | some c =>
              rw [emitKey_merge_defer m k rest hop hcm hb hpa] at h
              simp only [Except.ok.injEq, Option.some.injEq] at h
              rw [← h]

/-- The record (or deletion) the merger emits for one key resolves — in
front of the records of any untouched lower segments — exactly as the
original newest-first record list did. -/
theorem resolve_eq_after_merge (m : MergeOperator)
    (hcoh : ∀ k ex pre a b post c, m.partialMerge k a b = some c →
      m.fullMerge k ex (pre ++ a :: b :: post) = m.fullMerge k ex (pre ++ c :: post))
    {isBottom : Bool} {k : Bytes} {rsTop rsBot : List Record} {o : Option Record}
    (hbot : isBottom = true → rsBot = [])
    (he : emitKey m isBottom k rsTop = Except.ok o) :
    resolveRecords (some m) k (optToList o ++ rsBot)
      = resolveRecords (some m) k (rsTop ++ rsBot) := by
  cases rsTop with
  | nil =>
    rw [emitKey_nil] at he
    have ho : o = none := by
      simp only [Except.ok.injEq] at he
      exact he.symm
    subst ho
    rfl
  | cons r0 rest =>
    cases hop : r0.op with
    | set =>
      rw [emitKey_set m isBottom k rest hop] at he
      have ho : o = some ⟨Op.set, k, r0.val⟩ := by
        simp only [Except.ok.injEq] at he
        exact he.symm
      subst ho
      show resolveRecords (some m) k ([⟨Op.set, k, r0.val⟩] ++ rsBot) = _
      rw [List.singleton_append, List.cons_append]
      rw [resolveRecords_set (some m) k rsBot rfl,
        resolveRecords_set (some m) k (rest ++ rsBot) hop]
    | del =>
      cases hb : isBottom with
      | true =>
        rw [emitKey_del_bottom m k rest hop hb] at he
        have ho : o = none := by
          simp only [Except.ok.injEq] at he
          exact he.symm
        subst ho
        rw [hbot hb, List.append_nil]
        show resolveRecords (some m) k [] = _
        rw [List.append_nil]
        rw [resolveRecords_nil, resolveRecords_del (some m) k rest hop]
      | false =>
        rw [emitKey_del_keep m k rest hop hb] at he
        have ho : o = some ⟨Op.del, k, []⟩ := by
          simp only [Except.ok.injEq] at he
          exact he.symm
        subst ho
        show resolveRecords (some m) k ([⟨Op.del, k, []⟩] ++ rsBot) = _
        rw [List.singleton_append, List.cons_append]
        rw [resolveRecords_del (some m) k rsBot rfl,
          resolveRecords_del (some m) k (rest ++ rsBot) hop]
    | merge =>
      cases hcm : collectMerge (r0 :: rest) with
      | mk ops base =>
        cases base with
        | some bb =>
          cases hfm : m.fullMerge k bb ops with
          | none =>
            rw [emitKey_merge_base_fail m isBottom k rest hop hcm hfm] at he
            exact absurd he (by simp)
          | some v =>
            rw [emitKey_merge_base m isBottom k rest hop hcm hfm] at he
            have ho : o = some ⟨Op.set, k, v⟩ := by
              simp only [Except.ok.injEq] at he
              exact he.symm
            subst ho
            have hcm2 : collectMerge ((r0 :: rest) ++ rsBot) = (ops, some bb) :=
              collectMerge_append_of_base hcm
            show resolveRecords (some m) k ([⟨Op.set, k, v⟩] ++ rsBot) = _
            rw [List.singleton_append, List.cons_append]
            rw [resolveRecords_set (some m) k rsBot rfl,
              resolveRecords_merge m k (rest ++ rsBot) hop hcm2]
            rw [show (some bb : Option (Option Bytes)).join = bb from rfl, hfm]
        | none =>
          cases hb : isBottom with
          | true =>
            cases hfm : m.fullMerge k none ops with
            | none =>
              rw [emitKey_merge_bottom_fail m k rest hop hcm hb hfm] at he
              exact absurd he (by simp)
            | some v =>
              rw [emitKey_merge_bottom m k rest hop hcm hb hfm] at he
              have ho : o = some ⟨Op.set, k, v⟩ := by
                simp only [Except.ok.injEq] at he
                exact he.symm
              subst ho
              rw [hbot hb]
              show resolveRecords (some m) k ([(⟨Op.set, k, v⟩ : Record)] ++ [])
                = resolveRecords (some m) k ((r0 :: rest) ++ [])
              rw [List.append_nil, List.append_nil]
              rw [resolveRecords_set (some m) k [] rfl,
                resolveRecords_merge m k rest hop hcm]
              rw [show (none : Option (Option Bytes)).join = none from rfl, hfm]
          | false =>
            cases hpa : partialAll m k ops with
            | none =>
              rw [emitKey_merge_defer_fail m k rest hop hcm hb hpa] at he
              exact absurd he (by simp)
            | some c =>
              rw [emitKey_merge_defer m k rest hop hcm hb hpa] at he
              have ho : o = some ⟨Op.merge, k, c⟩ := by
                simp only [Except.ok.injEq] at he
                exact he.symm
              subst ho
              have hcm2 := collectMerge_append_of_none hcm rsBot
              have hcmc : collectMerge ((⟨Op.merge, k, c⟩ : Record) :: rsBot)
                  = ((collectMerge rsBot).1 ++ [c], (collectMerge rsBot).2) := by
                simp only [collectMerge]
              show resolveRecords (some m) k ([⟨Op.merge, k, c⟩] ++ rsBot) = _
              rw [List.singleton_append, List.cons_append]
              rw [resolveRecords_merge m k rsBot rfl hcmc,
                resolveRecords_merge m k (rest ++ rsBot) hop hcm2]
              rw [partialAll_fullMerge m hcoh k
                ((collectMerge rsBot).2.join) hpa (collectMerge rsBot).1]

theorem buildMerged_mem (m : MergeOperator) (bot : Bool) (segs : SegmentStack) :
    ∀ (ks : List Bytes) (L : List Record),
    buildMerged m bot segs ks = Except.ok L →
    ∀ r, r ∈ L ↔ ∃ k ∈ ks, emitKey m bot k (recordsForKey segs k) = Except.ok (some r) := by
  intro ks
  induction ks with
  | nil =>
    intro L hL r
    simp only [buildMerged, Except.ok.injEq] at hL
    subst hL
    simp
  | cons k ks' ih =>
    intro L hL r
    simp only [buildMerged] at hL
    cases he : emitKey m bot k (recordsForKey segs k) with
    | error e => rw [he] at hL; exact absurd hL (by simp)
    | ok o =>
      rw [he] at hL
      cases o with
      | none =>
        simp only at hL
        rw [ih L hL r]
        constructor
        · rintro ⟨k', hk', hek'⟩
          exact ⟨k', List.mem_cons_of_mem _ hk', hek'⟩
        · rintro ⟨k', hk', hek'⟩
          rcases List.mem_cons.mp hk' with heq | hm
          · subst heq
            rw [he] at hek'
            simp at hek'
          · exact ⟨k', hm, hek'⟩
      | some r0 =>
        simp only at hL
        cases hrest : buildMerged m bot segs ks' with
        | error e => rw [hrest] at hL; exact absurd hL (by simp)
        | ok L' =>
          rw [hrest] at hL
          simp only [Except.ok.injEq] at hL
          subst hL
          rw [List.mem_cons, ih L' hrest r]
          constructor
          · rintro (heq | ⟨k', hk', hek'⟩)
            · subst heq
              exact ⟨k, List.mem_cons_self _ _, he⟩
            · exact ⟨k', List.mem_cons_of_mem _ hk', hek'⟩
          · rintro ⟨k', hk', hek'⟩
            rcases List.mem_cons.mp hk' with heq | hm
            · subst heq
              rw [he] at hek'
              simp only [Except.ok.injEq, Option.some.injEq] at hek'
              exact Or.inl hek'.symm
            · exact Or.inr ⟨k', hm, hek'⟩

theorem buildMerged_emit_ok (m : MergeOperator) (bot : Bool) (segs : SegmentStack) :
    ∀ (ks : List Bytes) (L : List Record),
    buildMerged m bot segs ks = Except.ok L →
    ∀ k ∈ ks, ∃ o, emitKey m bot k (recordsForKey segs k) = Except.ok o := by
  intro ks
  induction ks with
  | nil => intro L _ k hk; simp at hk
  | cons k0 ks' ih =>
    intro L hL k hk
    simp only [buildMerged] at hL
    cases he : emitKey m bot k0 (recordsForKey segs k0) with
    | error e => rw [he] at hL; exact absurd hL (by simp)
    | ok o =>
      rw [he] at hL
      rcases List.mem_cons.mp hk with heq | hm
      · subst heq; exact ⟨o, he⟩
      · cases o with
        | none => exact ih L hL k hm
        | some r0 =>
          simp only at hL
          cases hrest : buildMerged m bot segs ks' with
          | error e => rw [hrest] at hL; exact absurd hL (by simp)
          | ok L' => exact ih L' hrest k hm

theorem buildMerged_sorted (m : MergeOperator) (bot : Bool) (segs : SegmentStack) :
    ∀ (ks : List Bytes) (L : List Record),
    List.Pairwise (fun a b => bytesLt a b = true) ks →
    buildMerged m bot segs ks = Except.ok L →
    SegLt L := by
  intro ks
  induction ks with
  | nil =>
    intro L _ hL
    simp only [buildMerged, Except.ok.injEq] at hL
    subst hL
    exact List.Pairwise.nil
  | cons k ks' ih =>
    intro L hks hL
    rw [List.pairwise_cons] at hks
    obtain ⟨hk_lt, hks'⟩ := hks
    simp only [buildMerged] at hL
    cases he : emitKey m bot k (recordsForKey segs k) with
    | error e => rw [he] at hL; exact absurd hL (by simp)
    | ok o =>
      rw [he] at hL
      cases o with
      | none => exact ih L hks' hL
      | some r0 =>
        simp only at hL
        cases hrest : buildMerged m bot segs ks' with
        | error e => rw [hrest] at hL; exact absurd hL (by simp)
        | ok L' =>
          rw [hrest] at hL
          simp only [Except.ok.injEq] at hL
          subst hL
          unfold SegLt
          rw [List.pairwise_cons]
          refine ⟨?_, ih L' hks' hrest⟩
          intro r hr
          obtain ⟨k', hk', hek'⟩ := (buildMerged_mem m bot segs ks' L' hrest r).mp hr
          rw [emitKey_some_key hek', emitKey_some_key he]
          exact hk_lt k' hk'

/-- In a merged segment, looking up key `k` yields exactly the record the
merger emitted for `k` (and nothing for keys the merge dropped or never
held). -/
theorem mergedSegment_getKey_some {m : MergeOperator} {bot : Bool}
    {segs : SegmentStack} {L : Segment}
    (hL : mergedSegment m bot segs = Except.ok L) {k : Bytes} {r : Record}
    (hks : k ∈ stackKeys segs)
    (he : emitKey m bot k (recordsForKey segs k) = Except.ok (some r)) :
    L.getKey k = some r := by
  unfold mergedSegment at hL
  have hsorted := buildMerged_sorted m bot segs (stackKeys segs) L
    (stackKeys_sorted segs) hL
  have hmem : r ∈ L :=
    (buildMerged_mem m bot segs (stackKeys segs) L hL r).mpr ⟨k, hks, he⟩
  exact getKey_eq_some_of_mem hsorted hmem (emitKey_some_key he)

theorem mergedSegment_getKey_none {m : MergeOperator} {bot : Bool}
    {segs : SegmentStack} {L : Segment}
    (hL : mergedSegment m bot segs = Except.ok L) {k : Bytes}
    (h : ∀ r, ¬ (k ∈ stackKeys segs ∧
      emitKey m bot k (recordsForKey segs k) = Except.ok (some r))) :
    L.getKey k = none := by
  unfold mergedSegment at hL
  apply getKey_eq_none_of_not_mem
  intro r hr hkey
  obtain ⟨k', hk', hek'⟩ := (buildMerged_mem m bot segs (stackKeys segs) L hL r).mp hr
  have : k' = k := by rw [← emitKey_some_key hek', hkey]
  subst this
  exact h r ⟨hk', hek'⟩

/-- One merger cycle does not change the resolved outcome of any key. -/
theorem resolveRecords_mergeTopN (m : MergeOperator)
    (hcoh : ∀ k ex pre a b post c, m.partialMerge k a b = some c →
      m.fullMerge k ex (pre ++ a :: b :: post) = m.fullMerge k ex (pre ++ c :: post))
    {ss : SegmentStack} {n : Nat} {ss2 : SegmentStack}
    (hmerge : mergeTopN m ss n = Except.ok ss2) (k : Bytes) :
    resolveRecords (some m) k (recordsForKey ss2 k)
      = resolveRecords (some m) k (recordsForKey ss k) := by
  unfold mergeTopN at hmerge
  cases hseg : mergedSegment m (ss.drop n).isEmpty (ss.take n) with
  | error e => rw [hseg] at hmerge; exact absurd hmerge (by simp)
  | ok seg =>
    rw [hseg] at hmerge
    simp only [Except.ok.injEq] at hmerge
    subst hmerge
    have hsplit : recordsForKey ss k
        = recordsForKey (ss.take n) k ++ recordsForKey (ss.drop n) k := by
      unfold recordsForKey
      rw [← List.filterMap_append, List.take_append_drop]
    have hbot : (ss.drop n).isEmpty = true → recordsForKey (ss.drop n) k = [] := by
      intro hemp
      rw [List.isEmpty_iff.mp hemp]
      rfl
    by_cases hks : k ∈ stackKeys (ss.take n)
    · obtain ⟨o, ho⟩ := buildMerged_emit_ok m ((ss.drop n).isEmpty) (ss.take n)
        (stackKeys (ss.take n)) seg hseg k hks
      have hget : seg.getKey k = o := by
        cases o with
        | some r => exact mergedSegment_getKey_some hseg hks ho
        | none =>
          apply mergedSegment_getKey_none hseg
          rintro r ⟨_, her⟩
          rw [ho] at her
          simp at her
      have hrec2 : recordsForKey (seg :: ss.drop n) k
          = optToList o ++ recordsForKey (ss.drop n) k := by
        unfold recordsForKey
        rw [List.filterMap_cons, hget]
        cases o <;> rfl
      rw [hrec2, hsplit]
      exact resolve_eq_after_merge m hcoh hbot ho
    · have htake : recordsForKey (ss.take n) k = [] := by
        apply List.filterMap_eq_nil.mpr
        intro s hs
        cases hg : s.getKey k with
        | none => rfl
        | some r =>
          exfalso
          obtain ⟨hmem, hkey⟩ := getKey_mem_of_eq_some hg
          exact hks (mem_stackKeys.mpr ⟨s, hs, r, hmem, hkey⟩)
      have hget : seg.getKey k = none := by
        apply mergedSegment_getKey_none hseg
        rintro r ⟨hk', _⟩
        exact hks hk'
      have hrec2 : recordsForKey (seg :: ss.drop n) k
          = recordsForKey (ss.drop n) k := by
        unfold recordsForKey
        rw [List.filterMap_cons, hget]
      rw [hrec2, hsplit, htake, List.nil_append]

instance : IsAntisymm Bytes (fun a b => bytesLt a b = true) :=
  ⟨fun a b h1 h2 => by
    have := bytesLt_trans h1 h2
    rw [bytesLt_irrefl] at this
    exact absurd this (by simp)⟩

theorem nodup_of_pairwise_lt {l : List Bytes}
    (h : List.Pairwise (fun a b => bytesLt a b = true) l) : l.Nodup :=
  h.imp fun hab => ne_of_bytesLt hab

theorem sorted_eq_of_mem_iff {l₁ l₂ : List Bytes}
    (hs₁ : List.Pairwise (fun a b => bytesLt a b = true) l₁)
    (hs₂ : List.Pairwise (fun a b => bytesLt a b = true) l₂)
    (hm : ∀ x, x ∈ l₁ ↔ x ∈ l₂) : l₁ = l₂ := by
  have hperm : l₁.Perm l₂ :=
    (List.perm_ext_iff_of_nodup (nodup_of_pairwise_lt hs₁)
      (nodup_of_pairwise_lt hs₂)).mpr hm
  exact List.eq_of_perm_of_sorted hperm hs₁ hs₂

theorem filterMap_filter_eq {α β} (p : α → Bool) (g : α → Option β) :
    ∀ l : List α, (∀ x ∈ l, p x = false → g x = none) →
    List.filterMap g (l.filter p) = List.filterMap g l := by
  intro l
  induction l with
  | nil => intro _; rfl
  | cons x xs ih =>
    intro h
    cases hp : p x with
    | true =>
      rw [List.filter_cons_of_pos hp, List.filterMap_cons, List.filterMap_cons]
      cases hg : g x with
      | none => exact ih fun a ha => h a (List.mem_cons_of_mem _ ha)
      | some b =>
        simp only
        rw [ih fun a ha => h a (List.mem_cons_of_mem _ ha)]
    | false =>
      rw [List.filter_cons_of_neg (by simp [hp]), List.filterMap_cons]
      rw [h x (List.mem_cons_self _ _) hp]
      exact ih fun a ha => h a (List.mem_cons_of_mem _ ha)

theorem mergeTopN_sorted (m : MergeOperator) {ss : SegmentStack} {n : Nat}
    {ss2 : SegmentStack} (hss : ∀ s ∈ ss, SegLt s)
    (hmerge : mergeTopN m ss n = Except.ok ss2) :
    ∀ s ∈ ss2, SegLt s := by
  unfold mergeTopN at hmerge
  cases hseg : mergedSegment m (ss.drop n).isEmpty (ss.take n) with
  | error e => rw [hseg] at hmerge; exact absurd hmerge (by simp)
  | ok seg =>
    rw [hseg] at hmerge
    simp only [Except.ok.injEq] at hmerge
    subst hmerge
    intro s hs
    rcases List.mem_cons.mp hs with heq | hm
    · subst heq
      exact buildMerged_sorted m _ (ss.take n) (stackKeys (ss.take n)) s
        (stackKeys_sorted _) hseg
    · exact hss s (List.drop_subset n ss hm)

theorem stackKeys_mergeTopN_subset {m : MergeOperator} {ss : SegmentStack}
    {n : Nat} {ss2 : SegmentStack} (hmerge : mergeTopN m ss n = Except.ok ss2)
    {k : Bytes} (hk : k ∈ stackKeys ss2) : k ∈ stackKeys ss := by
  unfold mergeTopN at hmerge
  cases hseg : mergedSegment m (ss.drop n).isEmpty (ss.take n) with
  | error e => rw [hseg] at hmerge; exact absurd hmerge (by simp)
  | ok seg =>
    rw [hseg] at hmerge
    simp only [Except.ok.injEq] at hmerge
    subst hmerge
    obtain ⟨s, hs, r, hr, hrk⟩ := mem_stackKeys.mp hk
    rcases List.mem_cons.mp hs with heq | hm
    · subst heq
      unfold mergedSegment at hseg
      obtain ⟨k', hk', hek'⟩ :=
        (buildMerged_mem m _ (ss.take n) (stackKeys (ss.take n)) s hseg r).mp hr
      have : r.key = k' := emitKey_some_key hek'
      rw [hrk] at this
      subst this
      obtain ⟨s', hs', r', hr', hrk'⟩ := mem_stackKeys.mp hk'
      exact mem_stackKeys.mpr ⟨s', List.take_subset n ss hs', r', hr', hrk'⟩
    · exact mem_stackKeys.mpr ⟨s, List.drop_subset n ss hm, r, hr, hrk⟩

theorem dropped_key_resolves_none (m : MergeOperator)
    (hcoh : ∀ k ex pre a b post c, m.partialMerge k a b = some c →
      m.fullMerge k ex (pre ++ a :: b :: post) = m.fullMerge k ex (pre ++ c :: post))
    {ss : SegmentStack} {n : Nat} {ss2 : SegmentStack}
    (hmerge : mergeTopN m ss n = Except.ok ss2) {k : Bytes}
    (hnot : k ∉ stackKeys ss2) :
    resolveRecords (some m) k (recordsForKey ss k) = Except.ok none := by
  rw [← resolveRecords_mergeTopN m hcoh hmerge k]
  have hnil : recordsForKey ss2 k = [] := by
    apply List.filterMap_eq_nil.mpr
    intro s hs
    cases hg : s.getKey k with
    | none => rfl
    | some r =>
      exfalso
      obtain ⟨hmem, hkey⟩ := getKey_mem_of_eq_some hg
      exact hnot (mem_stackKeys.mpr ⟨s, hs, r, hmem, hkey⟩)
  rw [hnil]
  rfl

/-- One merger cycle does not change the public keywise denotation. -/
theorem pubDenote_mergeTopN (m : MergeOperator)
    (hcoh : ∀ k ex pre a b post c, m.partialMerge k a b = some c →
      m.fullMerge k ex (pre ++ a :: b :: post) = m.fullMerge k ex (pre ++ c :: post))
    {ss : SegmentStack} {n : Nat} {ss2 : SegmentStack}
    (hmerge : mergeTopN m ss n = Except.ok ss2)
    (sk : Bytes) (e : Option Bytes) :
    pubDenote (some m) ss2 sk none e = pubDenote (some m) ss sk none e := by
  have hpe : pubEntry (some m) ss2 = pubEntry (some m) ss := by
    funext k
    unfold pubEntry
    rw [resolveRecords_mergeTopN m hcoh hmerge k]
  unfold pubDenote
  rw [hpe]
  have hsub2 : rangeKeys ss2 sk none e
      = (rangeKeys ss sk none e).filter (fun k => decide (k ∈ stackKeys ss2)) := by
    apply sorted_eq_of_mem_iff (rangeKeys_sorted ss2 sk none e)
      ((rangeKeys_sorted ss sk none e).filter _)
    intro x
    rw [List.mem_filter, mem_rangeKeys, mem_rangeKeys]
    constructor
    · rintro ⟨hx2, hlo, hbe⟩
      exact ⟨⟨stackKeys_mergeTopN_subset hmerge hx2, hlo, hbe⟩, by simp [hx2]⟩
    · rintro ⟨⟨hxss, hlo, hbe⟩, hdec⟩
      exact ⟨by simpa using hdec, hlo, hbe⟩
  rw [hsub2]
  apply filterMap_filter_eq
  intro k _ hdec
  have hnot : k ∉ stackKeys ss2 := by simpa using hdec
  unfold pubEntry
  rw [dropped_key_resolves_none m hcoh hmerge hnot]

/-- Any number of merger cycles preserves sortedness, every key's
resolved outcome, and the public keywise denotation. -/
theorem mergeCycles_props (m : MergeOperator)
    (hcoh : ∀ k ex pre a b post c, m.partialMerge k a b = some c →
      m.fullMerge k ex (pre ++ a :: b :: post) = m.fullMerge k ex (pre ++ c :: post)) :
    ∀ (ns : List Nat) (ss ss2 : SegmentStack),
    (∀ s ∈ ss, SegLt s) → mergeCycles m ss ns = Except.ok ss2 →
    (∀ s ∈ ss2, SegLt s) ∧
    (∀ k, resolveRecords (some m) k (recordsForKey ss2 k)
      = resolveRecords (some m) k (recordsForKey ss k)) ∧
    (∀ sk e, pubDenote (some m) ss2 sk none e = pubDenote (some m) ss sk none e) := by
  intro ns
  induction ns with
  | nil =>
    intro ss ss2 hss hc
    simp only [mergeCycles, Except.ok.injEq] at hc
    subst hc
    exact ⟨hss, fun _ => rfl, fun _ _ => rfl⟩
  | cons n ns' ih =>
    intro ss ss2 hss hc
    simp only [mergeCycles] at hc
    cases hm1 : mergeTopN m ss n with
    | error e => rw [hm1] at hc; exact absurd hc (by simp)
    | ok ss1 =>
      rw [hm1] at hc
      obtain ⟨hss1, hres1, hpd1⟩ := ih ss1 ss2 (mergeTopN_sorted m hss hm1) hc
      refine ⟨hss1, ?_, ?_⟩
      · intro k
        rw [hres1 k, resolveRecords_mergeTopN m hcoh hm1 k]
      · intro sk e
        rw [hpd1 sk e, pubDenote_mergeTopN m hcoh hm1 sk e]

/-! ## Range bounds, directly from the cursor invariants -/

theorem validRecords_belowEnd {it : Iter} {r : Record} (h : r ∈ validRecords it) :
    belowEnd it.endKeyExclusive r.key = true := by
  unfold validRecords at h
  obtain ⟨c, _, hcur⟩ := List.mem_filterMap.mp h
  exact (currentRecord_eq_some_iff.mp hcur).2

theorem rawCurrent_mem {it : Iter} {r : Record} (h : rawCurrent it = some r) :
    r ∈ validRecords it := by
  unfold rawCurrent at h
  cases htk : topKey it with
  | none => rw [htk] at h; exact absurd h (by simp)
  | some k =>
    rw [htk] at h
    exact List.mem_of_find?_eq_some h

theorem cursorsSorted_advance {it : Iter} {k : Bytes} (h : CursorsSorted it) :
    CursorsSorted (advance it k) := by
  intro c' hc'
  rw [advance_cursors] at hc'
  obtain ⟨c, hc, hstep⟩ := List.mem_map.mp hc'
  have hseg : c'.seg = c.seg := by
    rw [← hstep]
    cases hcr : c.currentRecord it.endKeyExclusive with
    | none => rfl
    | some r =>
      show (if (r.key == k) = true then { c with idx := c.idx + 1 } else c).seg = c.seg
      by_cases hb : (r.key == k) = true
      · rw [if_pos hb]
      · rw [if_neg hb]
  rw [hseg]
  exact h c hc

theorem lowerBounded_advance {sk : Bytes} {it : Iter} {k : Bytes}
    (hsorted : CursorsSorted it) (hlb : LowerBounded sk it) :
    LowerBounded sk (advance it k) := by
  intro r hr
  unfold validRecords at hr
  obtain ⟨c', hc', hcur'⟩ := List.mem_filterMap.mp hr
  rw [advance_cursors] at hc'
  obtain ⟨c, hc, hstep⟩ := List.mem_map.mp hc'
  have hcur'' : c'.currentRecord it.endKeyExclusive = some r := hcur'
  cases hcr : c.currentRecord it.endKeyExclusive with
  | none =>
    have hcc : c' = c := by rw [← hstep, hcr]
    rw [hcc] at hcur''
    rw [hcr] at hcur''
    exact absurd hcur'' (by simp)
  | some r₀ =>
    have hr₀ : r₀ ∈ validRecords it := by
      unfold validRecords
      exact List.mem_filterMap.mpr ⟨c, hc, hcr⟩
    by_cases hb : (r₀.key == k) = true
    · have hcc : c' = { c with idx := c.idx + 1 } := by
        rw [← hstep, hcr]
        show (if (r₀.key == k) = true then { c with idx := c.idx + 1 } else c) = _
        rw [if_pos hb]
      rw [hcc] at hcur''
      obtain ⟨hg, _⟩ := currentRecord_eq_some_iff.mp hcur''
      simp only at hg
      obtain ⟨hg0, _⟩ := currentRecord_eq_some_iff.mp hcr
      have hidx0 : c.idx < c.seg.length := (List.getElem?_eq_some.mp hg0).1
      have hidx1 : c.idx + 1 < c.seg.length := (List.getElem?_eq_some.mp hg).1
      have hmono := segLe_keyAt_mono (hsorted c hc) (Nat.le_succ c.idx) hidx1
      have hk0 : keyAt c.seg c.idx = r₀.key := by
        unfold keyAt
        rw [hg0]
      have hk1 : keyAt c.seg (c.idx + 1) = r.key := by
        unfold keyAt
        rw [hg]
      rw [hk0, hk1] at hmono
      exact bytesLe_trans (hlb r₀ hr₀) hmono
    · have hcc : c' = c := by
        rw [← hstep, hcr]
        show (if (r₀.key == k) = true then { c with idx := c.idx + 1 } else c) = _
        rw [if_neg hb]
      rw [hcc] at hcur''
      rw [hcr] at hcur''
      simp only [Option.some.injEq] at hcur''
      rw [← hcur'']
      exact hlb r₀ hr₀

theorem rawIterate_bounds : ∀ (n : Nat) (it : Iter) (sk : Bytes),
    remaining it ≤ n → CursorsSorted it → LowerBounded sk it →
    ∀ r ∈ rawIterate it,
      bytesLe sk r.key = true ∧ belowEnd it.endKeyExclusive r.key = true := by
  intro n
  induction n with
  | zero =>
    intro it sk hn _ _ r hr
    have htop : topKey it = none := remaining_eq_zero_topKey (by omega)
    rw [rawIterate_done (rawCurrent_eq_none_iff.mpr htop)] at hr
    simp at hr
  | succ n ih =>
    intro it sk hn hsorted hlb r hr
    cases hcur : rawCurrent it with
    | none =>
      rw [rawIterate_done hcur] at hr
      simp at hr
    | some r₀ =>
      rw [rawIterate_yield hcur] at hr
      have htop := rawCurrent_key hcur
      rcases List.mem_cons.mp hr with heq | hm
      · subst heq
        have hmem := rawCurrent_mem hcur
        exact ⟨hlb r hmem, validRecords_belowEnd hmem⟩
      · have hdec := remaining_advance_lt htop
        have := ih (advance it r₀.key) sk (by omega)
          (cursorsSorted_advance hsorted) (lowerBounded_advance hsorted hlb) r hm
        rw [advance_endKey] at this
        exact this

theorem pubIterate_bounds : ∀ (n : Nat) (it : Iter) (sk : Bytes),
    remaining it ≤ n → CursorsSorted it → LowerBounded sk it →
    ∀ entry ∈ pubIterate it, ∀ k v, entry = Except.ok (k, v) →
      bytesLe sk k = true ∧ belowEnd it.endKeyExclusive k = true := by
  intro n
  induction n with
  | zero =>
    intro it sk hn _ _ entry he
    have htop : topKey it = none := remaining_eq_zero_topKey (by omega)
    rw [pubIterate_done htop] at he
    simp at he
  | succ n ih =>
    intro it sk hn hsorted hlb entry he k v heq
    cases htop : topKey it with
    | none =>
      rw [pubIterate_done htop] at he
      simp at he
    | some k₀ =>
      have hdec := remaining_advance_lt htop
      have hk₀ : bytesLe sk k₀ = true ∧ belowEnd it.endKeyExclusive k₀ = true := by
        obtain ⟨c, hc, r, hcr, hkey⟩ := topKey_some_exists htop
        have hmem : r ∈ validRecords it := List.mem_filterMap.mpr ⟨c, hc, hcr⟩
        rw [← hkey]
        exact ⟨hlb r hmem, validRecords_belowEnd hmem⟩
      have hihtail : ∀ entry ∈ pubIterate (advance it k₀), ∀ k v,
          entry = Except.ok (k, v) →
          bytesLe sk k = true ∧ belowEnd it.endKeyExclusive k = true := by
        intro entry hmem k v heqe
        have := ih (advance it k₀) sk (by omega)
          (cursorsSorted_advance hsorted) (lowerBounded_advance hsorted hlb)
          entry hmem k v heqe
        rw [advance_endKey] at this
        exact this
      cases hres : resolveRecords it.mo k₀ (recordsOnKey it k₀) with
      | ok ov =>
        cases ov with
        | none =>
          rw [pubIterate_skip htop hres] at he
          exact hihtail entry he k v heq
        | some v₀ =>
          rw [pubIterate_yield htop hres] at he
          rcases List.mem_cons.mp he with heqe | hm
          · rw [heqe] at heq
            simp only [Except.ok.injEq, Prod.mk.injEq] at heq
            rw [← heq.1]
            exact hk₀
          · exact hihtail entry hm k v heq
      | error e₀ =>
        rw [pubIterate_err htop hres] at he
        rcases List.mem_cons.mp he with heqe | hm
        · rw [heqe] at heq
          exact absurd heq (by simp)
        · exact hihtail entry hm k v heq

theorem startIterator_lowerBounded (mo : Option MergeOperator) (ss : SegmentStack)
    (startKey e : Option Bytes) (hs : ∀ s ∈ ss, SegLe s) :
    LowerBounded (startKey.getD []) (startIterator mo ss startKey e) := by
  intro r hr
  unfold validRecords startIterator at hr
  simp only at hr
  obtain ⟨c, hc, hcur⟩ := List.mem_filterMap.mp hr
  obtain ⟨s, hs', hcs⟩ := List.mem_map.mp hc
  rw [← hcs] at hcur
  obtain ⟨hg, _⟩ := currentRecord_eq_some_iff.mp hcur
  simp only at hg
  have hspec := findStart_spec s (hs s hs') startKey
  obtain ⟨_, _, hhigh⟩ := hspec
  have hidx : s.findStartKeyInclusivePos startKey < s.length :=
    (List.getElem?_eq_some.mp hg).1
  have := hhigh _ (le_refl _) hidx
  have hkeq : keyAt s (s.findStartKeyInclusivePos startKey) = r.key := by
    unfold keyAt
    rw [hg]
  rw [hkeq] at this
  exact this

theorem startIterator_cursorsSorted (mo : Option MergeOperator) (ss : SegmentStack)
    (startKey e : Option Bytes) (hs : ∀ s ∈ ss, SegLe s) :
    CursorsSorted (startIterator mo ss startKey e) := by
  intro c hc
  unfold startIterator at hc
  simp only at hc
  obtain ⟨s, hs', hcs⟩ := List.mem_map.mp hc
  rw [← hcs]
  exact hs s hs'

theorem topKey_none_of_degenerate {it : Iter} {sk : Bytes} {ev : Bytes}
    (hlb : LowerBounded sk it) (he : it.endKeyExclusive = some ev)
    (hle : bytesLe ev sk = true) : topKey it = none := by
  cases hv : validRecords it with
  | nil =>
    unfold topKey
    rw [hv]
    rfl
  | cons r rest =>
    exfalso
    have hr : r ∈ validRecords it := by
      rw [hv]
      exact List.mem_cons_self _ _
    have h1 := hlb r hr
    have h2 := validRecords_belowEnd hr
    rw [he] at h2
    have h2' : bytesLt r.key ev = true := h2
    have := bytesLt_of_lt_of_le h2' (bytesLe_trans hle h1)
    rw [bytesLt_irrefl] at this
    exact absurd this (by simp)

theorem applyBatches_eq (bs : List Segment) :
    ∀ ss : SegmentStack, applyBatches ss bs = (bs.map Segment.sort).reverse ++ ss := by
  induction bs with
  | nil => intro ss; rfl
  | cons b bs' ih =>
    intro ss
    show applyBatches (executeBatch ss b) bs' = _
    rw [ih (executeBatch ss b)]
    unfold executeBatch
    rw [List.map_cons, List.reverse_cons, List.append_assoc]
    rfl

theorem mem_applyBatches_nil {bs : List Segment} {s : Segment}
    (h : s ∈ applyBatches [] bs) : ∃ b ∈ bs, s = Segment.sort b := by
  rw [applyBatches_eq bs []] at h
  rw [List.append_nil, List.mem_reverse] at h
  obtain ⟨b, hb, hbs⟩ := List.mem_map.mp h
  exact ⟨b, hb, hbs.symm⟩

theorem sort_mem_applyBatches_nil {bs : List Segment} {b : Segment} (hb : b ∈ bs) :
    Segment.sort b ∈ applyBatches [] bs := by
  rw [applyBatches_eq bs [], List.append_nil, List.mem_reverse]
  exact List.mem_map.mpr ⟨b, hb, rfl⟩

theorem applyBatches_segLt {bs : List Segment}
    (hnodup : ∀ b ∈ bs, (b.map (fun r => r.key)).Nodup) :
    ∀ s ∈ applyBatches [] bs, SegLt s := by
  intro s hs
  obtain ⟨b, hb, rfl⟩ := mem_applyBatches_nil hs
  exact sort_segLt (hnodup b hb)

theorem recordsForKey_applyBatches (bs : List Segment) (k : Bytes) :
    recordsForKey (applyBatches [] bs) k
      = (bs.filterMap (fun b => (Segment.sort b).getKey k)).reverse := by
  rw [applyBatches_eq bs [], List.append_nil]
  unfold recordsForKey
  rw [List.filterMap_reverse, List.filterMap_map]
  rfl

/-- In a batch with distinct keys that holds record `r` for key `k`, the
sorted segment's lookup finds exactly `r`. -/
theorem getKey_sort_batch {b : Segment} {r : Record} {k : Bytes}
    (hnodup : (b.map (fun r => r.key)).Nodup) (hr : r ∈ b) (hk : r.key = k) :
    (Segment.sort b).getKey k = some r :=
  getKey_eq_some_of_mem (sort_segLt hnodup) ((sort_perm b).mem_iff.mpr hr) hk

theorem getKey_sort_batch_none {b : Segment} {k : Bytes}
    (hnone : ∀ r ∈ b, r.key ≠ k) :
    (Segment.sort b).getKey k = none :=
  getKey_eq_none_of_not_mem fun r hr => hnone r ((sort_perm b).mem_iff.mp hr)

theorem recordsForKey_key {ss : SegmentStack} {k : Bytes} {r : Record}
    (h : r ∈ recordsForKey ss k) : r.key = k := by
  unfold recordsForKey at h
  obtain ⟨s, _, hget⟩ := List.mem_filterMap.mp h
  exact (getKey_mem_of_eq_some hget).2

theorem pubEntry_ok_key {mo : Option MergeOperator} {ss : SegmentStack}
    {k a : Bytes} {v : Bytes}
    (h : pubEntry mo ss k = some (Except.ok (a, v))) : a = k := by
  unfold pubEntry at h
  cases hres : resolveRecords mo k (recordsForKey ss k) with
  | error e => rw [hres] at h; simp at h
  | ok ov =>
    rw [hres] at h
    cases ov with
    | none => simp at h
    | some v' =>
      simp only [Option.some.injEq, Except.ok.injEq, Prod.mk.injEq] at h
      exact h.1.symm

theorem entryHasKey_pubEntry_ne {mo : Option MergeOperator} {ss : SegmentStack}
    {k k' : Bytes} {entry : Except Err (Bytes × Bytes)}
    (hne : k' ≠ k) (h : pubEntry mo ss k' = some entry) :
    entryHasKey k entry = false := by
  cases entry with
  | error e => rfl
  | ok p =>
    cases p with
    | mk a v =>
      have := pubEntry_ok_key h
      subst this
      unfold entryHasKey
      simp [hne]

theorem filter_entryHasKey_not_mem (mo : Option MergeOperator) (ss : SegmentStack)
    (k : Bytes) : ∀ keys : List Bytes, k ∉ keys →
    (keys.filterMap (pubEntry mo ss)).filter (entryHasKey k) = [] := by
  intro keys
  induction keys with
  | nil => intro _; rfl
  | cons k' ks ih =>
    intro hk
    rw [List.filterMap_cons]
    have hk' : k' ≠ k := fun he => hk (he ▸ List.mem_cons_self _ _)
    have hks : k ∉ ks := fun hm => hk (List.mem_cons_of_mem _ hm)
    cases hpe : pubEntry mo ss k' with
    | none => exact ih hks
    | some entry =>
      simp only
      rw [List.filter_cons_of_neg (by simp [entryHasKey_pubEntry_ne hk' hpe])]
      exact ih hks

theorem filter_entryHasKey_mem (mo : Option MergeOperator) (ss : SegmentStack)
    (k : Bytes) : ∀ keys : List Bytes, keys.Nodup → k ∈ keys →
    (keys.filterMap (pubEntry mo ss)).filter (entryHasKey k)
      = match pubEntry mo ss k with
        | some entry => List.filter (entryHasKey k) [entry]
        | none => [] := by
  intro keys
  induction keys with
  | nil => intro _ hk; simp at hk
  | cons k' ks ih =>
    intro hnd hk
    rw [List.nodup_cons] at hnd
    rw [List.filterMap_cons]
    rcases List.mem_cons.mp hk with heq | hm
    · subst heq
      cases hpe : pubEntry mo ss k with
      | none => exact filter_entryHasKey_not_mem mo ss k ks hnd.1
      | some entry =>
        simp only
        rw [List.filter_cons]
        rw [filter_entryHasKey_not_mem mo ss k ks hnd.1]
        rw [List.filter_cons]
        rfl
    · have hk' : k' ≠ k := fun he => hnd.1 (he ▸ hm)
      cases hpe : pubEntry mo ss k' with
      | none => exact ih hnd.2 hm
      | some entry =>
        simp only
        rw [List.filter_cons_of_neg (by simp [entryHasKey_pubEntry_ne hk' hpe])]
        exact ih hnd.2 hm

theorem rangeKeys_full (ss : SegmentStack) :
    rangeKeys ss [] none none = stackKeys ss := by
  unfold rangeKeys
  apply List.filter_eq_self.mpr
  intro k _
  unfold lowerOK belowEnd frontierLt
  simp

theorem head_recordsForKey_key {ss : SegmentStack} {k : Bytes} {r : Record}
    (h : (recordsForKey ss k).head? = some r) : r.key = k := by
  apply recordsForKey_key
  apply List.mem_of_mem_head?
  rw [h]
  rfl

theorem filter_recordKey_not_mem (ss : SegmentStack) (k : Bytes) :
    ∀ keys : List Bytes, k ∉ keys →
    (keys.filterMap (fun k' => (recordsForKey ss k').head?)).filter
      (fun r => r.key == k) = [] := by
  intro keys
  induction keys with
  | nil => intro _; rfl
  | cons k' ks ih =>
    intro hk
    rw [List.filterMap_cons]
    have hk' : k' ≠ k := fun he => hk (he ▸ List.mem_cons_self _ _)
    have hks : k ∉ ks := fun hm => hk (List.mem_cons_of_mem _ hm)
    cases hh : (recordsForKey ss k').head? with
    | none => exact ih hks
    | some r =>
      simp only
      have hkey := head_recordsForKey_key hh
      rw [List.filter_cons_of_neg (by simp [hkey, hk'])]
      exact ih hks

theorem filter_recordKey_mem (ss : SegmentStack) (k : Bytes) :
    ∀ keys : List Bytes, keys.Nodup → k ∈ keys →
    (keys.filterMap (fun k' => (recordsForKey ss k').head?)).filter
      (fun r => r.key == k)
      = match (recordsForKey ss k).head? with
        | some r => [r]
        | none => [] := by
  intro keys
  induction keys with
  | nil => intro _ hk; simp at hk
  | cons k' ks ih =>
    intro hnd hk
    rw [List.nodup_cons] at hnd
    rw [List.filterMap_cons]
    rcases List.mem_cons.mp hk with heq | hm
    · subst heq
      cases hh : (recordsForKey ss k).head? with
      | none => exact filter_recordKey_not_mem ss k ks hnd.1
      | some r =>
        simp only
        have hkey := head_recordsForKey_key hh
        rw [List.filter_cons_of_pos (by simp [hkey])]
        rw [filter_recordKey_not_mem ss k ks hnd.1]
    · have hk' : k' ≠ k := fun he => hnd.1 (he ▸ hm)
      cases hh : (recordsForKey ss k').head? with
      | none => exact ih hnd.2 hm
      | some r =>
        simp only
        have hkey := head_recordsForKey_key hh
        rw [List.filter_cons_of_neg (by simp [hkey, hk'])]
        exact ih hnd.2 hm

/-! ## Merge chains across batches -/

theorem collectMerge_revMerges (k : Bytes) :
    ∀ ms : List Bytes,
    collectMerge ((ms.map (fun m => (⟨Op.merge, k, m⟩ : Record))).reverse)
      = (ms, none) := by
  intro ms
  induction ms with
  | nil => rfl
  | cons m ms' ih =>
    rw [List.map_cons, List.reverse_cons]
    rw [collectMerge_append_of_none ih [⟨Op.merge, k, m⟩]]
    rfl

theorem filterMap_getKey_none {k : Bytes} : ∀ bs : List Segment,
    (∀ b ∈ bs, ∀ r ∈ b, r.key ≠ k) →
    bs.filterMap (fun b => (Segment.sort b).getKey k) = [] := by
  intro bs
  induction bs with
  | nil => intro _; rfl
  | cons b bs' ih =>
    intro h
    rw [List.filterMap_cons, getKey_sort_batch_none (h b (List.mem_cons_self _ _))]
    exact ih fun b' hb' => h b' (List.mem_cons_of_mem _ hb')

theorem filterMap_getKey_merges {k : Bytes} :
    ∀ (bs : List Segment) (ms : List Bytes),
    (∀ b ∈ bs, (b.map (fun r => r.key)).Nodup) →
    List.Forall₂ (fun b o => (⟨Op.merge, k, o⟩ : Record) ∈ b) bs ms →
    bs.filterMap (fun b => (Segment.sort b).getKey k)
      = ms.map (fun o => (⟨Op.merge, k, o⟩ : Record)) := by
  intro bs
  induction bs with
  | nil =>
    intro ms _ hf
    cases hf
    rfl
  | cons b bs' ih =>
    intro ms hnd hf
    cases hf with
    | cons hmem hrest =>
      rename_i o os
      rw [List.filterMap_cons,
        getKey_sort_batch (hnd b (List.mem_cons_self _ _)) hmem rfl]
      simp only [List.map_cons]
      rw [ih os (fun b' hb' => hnd b' (List.mem_cons_of_mem _ hb')) hrest]

theorem resolveRecords_mergeRun (m : MergeOperator) (k : Bytes)
    (mm : Bytes) (ms : List Bytes) (tail : List Record) :
    resolveRecords (some m) k
      (((mm :: ms).map (fun o => (⟨Op.merge, k, o⟩ : Record))).reverse ++ tail)
      = match m.fullMerge k (collectMerge tail).2.join
            ((collectMerge tail).1 ++ (mm :: ms)) with
        | some v => Except.ok (some v)
        | none => Except.error Err.mergeOperatorFullMergeFailed := by
  have hcm : collectMerge
      (((mm :: ms).map (fun o => (⟨Op.merge, k, o⟩ : Record))).reverse ++ tail)
      = ((collectMerge tail).1 ++ (mm :: ms), (collectMerge tail).2) :=
    collectMerge_append_of_none (collectMerge_revMerges k (mm :: ms)) tail
  cases hrev : ((mm :: ms).map (fun o => (⟨Op.merge, k, o⟩ : Record))).reverse with
  | nil => exact absurd hrev (by simp)
  | cons r rest =>
    have hr : r.op = Op.merge := by
      have hmem : r ∈ ((mm :: ms).map (fun o => (⟨Op.merge, k, o⟩ : Record))).reverse := by
        rw [hrev]
        exact List.mem_cons_self _ _
      rw [List.mem_reverse] at hmem
      obtain ⟨o, _, ho⟩ := List.mem_map.mp hmem
      rw [← ho]
    rw [hrev] at hcm
    rw [List.cons_append] at hcm
    rw [List.cons_append]
    exact resolveRecords_merge m k (rest ++ tail) hr hcm

theorem recordsForKey_latest (k : Bytes) (bs₁ : List Segment) {b₀ : Segment}
    {bs₂ : List Segment} {r₀ : Record}
    (hget : (Segment.sort b₀).getKey k = some r₀)
    (hafter : ∀ b ∈ bs₂, ∀ r ∈ b, r.key ≠ k) :
    recordsForKey (applyBatches [] (bs₁ ++ b₀ :: bs₂)) k
      = r₀ :: (bs₁.filterMap (fun b => (Segment.sort b).getKey k)).reverse := by
  rw [recordsForKey_applyBatches, List.filterMap_append, List.filterMap_cons, hget]
  simp only
  rw [filterMap_getKey_none bs₂ hafter, List.reverse_append]
  rfl

theorem appendOp_coherent : ∀ (k : Bytes) (ex : Option Bytes)
    (pre : List Bytes) (a b : Bytes) (post : List Bytes) (c : Bytes),
    testMergeOperatorAppend.partialMerge k a b = some c →
    testMergeOperatorAppend.fullMerge k ex (pre ++ a :: b :: post)
      = testMergeOperatorAppend.fullMerge k ex (pre ++ c :: post) := by
  intro k ex pre a b post c h
  simp only [testMergeOperatorAppend, Option.some.injEq] at h
  subst h
  simp only [testMergeOperatorAppend, Option.some.injEq]
  rw [List.foldl_append, List.foldl_append]
  simp only [List.foldl_cons]
  rw [List.append_assoc]
  rfl

theorem runCmds_execBatches : ∀ (bs : List Segment) (w : World),
    runCmds w (bs.map Cmd.execBatch)
      = { curr := applyBatches w.curr bs, snaps := w.snaps } := by
  intro bs
  induction bs with
  | nil => intro w; rfl
  | cons b bs' ih =>
    intro w
    show runCmds (stepCmd w (Cmd.execBatch b)) (bs'.map Cmd.execBatch) = _
    rw [ih]
    rfl

theorem runCmds_append (w : World) (cs₁ cs₂ : List Cmd) :
    runCmds w (cs₁ ++ cs₂) = runCmds (runCmds w cs₁) cs₂ := by
  unfold runCmds
  rw [List.foldl_append]

theorem filter_ge_sorted_head {k : Bytes} : ∀ {l : List Bytes},
    List.Pairwise (fun a b => bytesLt a b = true) l → k ∈ l →
    ∃ rest, l.filter (fun x => bytesLe k x) = k :: rest := by
  intro l
  induction l with
  | nil => intro _ hk; simp at hk
  | cons x xs ih =>
    intro hs hk
    rw [List.pairwise_cons] at hs
    rcases List.mem_cons.mp hk with heq | hm
    · subst heq
      refine ⟨xs.filter (fun x => bytesLe k x), ?_⟩
      rw [List.filter_cons_of_pos (bytesLe_refl k)]
    · have hxk : bytesLt x k = true := hs.1 k hm
      rw [List.filter_cons_of_neg (by simp [not_le_of_bytesLt hxk])]
      exact ih hs.2 hm

theorem rawCurrent_of_rawIterate_cons {it : Iter} {r : Record} {rest : List Record}
    (h : rawIterate it = r :: rest) : rawCurrent it = some r := by
  unfold rawIterate at h
  cases hn : remaining it with
  | zero =>
    rw [hn] at h
    exact absurd h (by simp [rawIterateF])
  | succ n =>
    rw [hn] at h
    cases hcur : rawCurrent it with
    | none =>
      rw [rawIterateF, hcur] at h
      exact absurd h (by simp)
    | some r' =>
      simp only [rawIterateF, hcur, List.cons.injEq] at h
      rw [h.1]

theorem pubIterate_full_filter (mo : Option MergeOperator) (ss : SegmentStack)
    (hss : ∀ s ∈ ss, SegLt s) (k : Bytes) :
    (pubIterate (startIterator mo ss none none)).filter (entryHasKey k)
      = if k ∈ stackKeys ss
        then match pubEntry mo ss k with
          | some entry => List.filter (entryHasKey k) [entry]
          | none => []
        else [] := by
  rw [pubIterate_startIterator mo ss none none hss]
  unfold pubDenote
  simp only [Option.getD_none]
  rw [rangeKeys_full]
  by_cases hk : k ∈ stackKeys ss
  · rw [if_pos hk]
    exact filter_entryHasKey_mem mo ss k _ (nodup_of_pairwise_lt (stackKeys_sorted ss)) hk
  · rw [if_neg hk]
    exact filter_entryHasKey_not_mem mo ss k _ hk

theorem rawIterate_full_filter (mo : Option MergeOperator) (ss : SegmentStack)
    (hss : ∀ s ∈ ss, SegLt s) (k : Bytes) :
    (rawIterate (startIterator mo ss none none)).filter (fun r => r.key == k)
      = if k ∈ stackKeys ss
        then match (recordsForKey ss k).head? with
          | some r => [r]
          | none => []
        else [] := by
  rw [rawIterate_startIterator mo ss none none hss]
  unfold rawDenote
  simp only [Option.getD_none]
  rw [rangeKeys_full]
  by_cases hk : k ∈ stackKeys ss
  · rw [if_pos hk]
    exact filter_recordKey_mem ss k _ (nodup_of_pairwise_lt (stackKeys_sorted ss)) hk
  · rw [if_neg hk]
    exact filter_recordKey_not_mem ss k _ hk

/-! ## The claims -/

/-- C10: `NewCollection` never fails: for every `CollectionOptions` value,
including the zero value (nil MergeOperator, zero MinMergePercentage, zero
MaxStackOpenHeight), it returns an unstarted collection carrying those
options and an empty stack, together with a nil error. -/
theorem newCollectionNeverFails (opts : CollectionOptions) :
    NewCollection opts
      = Except.ok { options := opts, stack := [], started := false } ∧
    NewCollection CollectionOptions.zero
      = Except.ok { options := CollectionOptions.zero, stack := [], started := false } :=
  ⟨rfl, rfl⟩

/-- C7: `sort()` returns a segment holding exactly the same
(operation, key, value) records in ascending lexicographic key order
(strictly ascending when the batch has no duplicate key), while the
pre-sort batch keeps insertion order; concretely, appending
Set("f","F"), Set("d","D"), Set("b","B") keeps indices 0,1,2 as f,d,b
before sorting and yields (b,B), (d,D), (f,F) at indices 0,1,2 after. -/
theorem batchSortSpec (b : Segment) :
    (Segment.sort b).Perm b ∧
    SegLe (Segment.sort b) ∧
    ((b.map (fun r => r.key)).Nodup → SegLt (Segment.sort b)) ∧
    (Batch.set (Batch.set (Batch.set [] [102] [70]) [100] [68]) [98] [66]).getOperationKeyVal 0
      = some (Op.set, [102], [70]) ∧
    (Batch.set (Batch.set (Batch.set [] [102] [70]) [100] [68]) [98] [66]).getOperationKeyVal 1
      = some (Op.set, [100], [68]) ∧
    (Batch.set (Batch.set (Batch.set [] [102] [70]) [100] [68]) [98] [66]).getOperationKeyVal 2
      = some (Op.set, [98], [66]) ∧
    (Segment.sort
      (Batch.set (Batch.set (Batch.set [] [102] [70]) [100] [68]) [98] [66])).getOperationKeyVal 0
      = some (Op.set, [98], [66]) ∧
    (Segment.sort
      (Batch.set (Batch.set (Batch.set [] [102] [70]) [100] [68]) [98] [66])).getOperationKeyVal 1
      = some (Op.set, [100], [68]) ∧
    (Segment.sort
      (Batch.set (Batch.set (Batch.set [] [102] [70]) [100] [68]) [98] [66])).getOperationKeyVal 2
      = some (Op.set, [102], [70]) :=
  ⟨sort_perm b, sort_segLe b, fun h => sort_segLt h, rfl, rfl, rfl, rfl, rfl, rfl⟩

/-- C7 witness: on the three-record batch of the example, whose keys are
distinct, the sort is strictly ascending. -/
theorem batchSortSpec_witness :
    ((Batch.set (Batch.set (Batch.set [] [102] [70]) [100] [68]) [98] [66]).map
      (fun r => r.key)).Nodup ∧
    SegLt (Segment.sort
      (Batch.set (Batch.set (Batch.set [] [102] [70]) [100] [68]) [98] [66])) :=
  ⟨by decide,
   (batchSortSpec (Batch.set (Batch.set (Batch.set [] [102] [70]) [100] [68]) [98] [66])).2.2.1
     (by decide)⟩

/-- C8: on a snapshot of an empty collection (no batches, or one empty
batch) Get returns nil value and nil error for every key and a full-range
iterator is immediately exhausted; `iterator-done` is a signal, not a
failure: whenever an iterator has no live entry, `current()`, `Current()`
and `Next()` all return it. -/
theorem emptyCollectionDone (mo : Option MergeOperator) (k : Bytes) :
    stackGet mo [] k = Except.ok none ∧
    stackGet mo (executeBatch [] []) k = Except.ok none ∧
    pubIterate (startIterator mo [] none none) = [] ∧
    Iter.current (startIterator mo (executeBatch [] []) none none)
      = Except.error Err.iteratorDone ∧
    (∀ it : Iter, topKey it = none →
      Iter.current it = Except.error Err.iteratorDone ∧
      Iter.CurrentPub it = Except.error Err.iteratorDone ∧
      Iter.next it = Except.error Err.iteratorDone) := by
  refine ⟨rfl, rfl, rfl, rfl, ?_⟩
  intro it htop
  refine ⟨?_, ?_, ?_⟩
  · unfold Iter.current
    rw [rawCurrent_eq_none_iff.mpr htop]
  · unfold Iter.CurrentPub
    rw [pubIterate_done htop]
  · unfold Iter.next
    rw [htop]

/-- C8 witness: the fresh iterator over the empty stack has no live key,
and all three iterator operations report `iterator-done` on it. -/
theorem emptyCollectionDone_witness :
    topKey (startIterator none [] none none) = none ∧
    Iter.current (startIterator none [] none none) = Except.error Err.iteratorDone ∧
    Iter.CurrentPub (startIterator none [] none none) = Except.error Err.iteratorDone ∧
    Iter.next (startIterator none [] none none) = Except.error Err.iteratorDone := by
  refine ⟨rfl, ?_⟩
  have h := (emptyCollectionDone none []).2.2.2.2 (startIterator none [] none none) rfl
  exact ⟨h.1, h.2.1, h.2.2⟩

/-- C2: snapshot isolation on a client trace: a snapshot named `n` taken
after executing the batches `bs₁` stores exactly the stack those batches
built; executing any further batches `bs₂` leaves the stored snapshots
untouched, so every Get and every iteration through the snapshot is the
one determined by the pre-snapshot stack. -/
theorem snapshotIsolation (bs₁ bs₂ : List Segment) (n : Nat)
    (mo : Option MergeOperator) (k : Bytes) (sk e : Option Bytes) :
    lookupSnap (runCmds { curr := [], snaps := [] }
        (bs₁.map Cmd.execBatch ++ Cmd.takeSnapshot n :: bs₂.map Cmd.execBatch)) n
      = some (applyBatches [] bs₁) ∧
    (runCmds { curr := [], snaps := [] }
        (bs₁.map Cmd.execBatch ++ Cmd.takeSnapshot n :: bs₂.map Cmd.execBatch)).snaps
      = (runCmds { curr := [], snaps := [] }
          (bs₁.map Cmd.execBatch ++ [Cmd.takeSnapshot n])).snaps ∧
    (lookupSnap (runCmds { curr := [], snaps := [] }
        (bs₁.map Cmd.execBatch ++ Cmd.takeSnapshot n :: bs₂.map Cmd.execBatch)) n).map
        (fun ss => stackGet mo ss k)
      = some (stackGet mo (applyBatches [] bs₁) k) ∧
    (lookupSnap (runCmds { curr := [], snaps := [] }
        (bs₁.map Cmd.execBatch ++ Cmd.takeSnapshot n :: bs₂.map Cmd.execBatch)) n).map
        (fun ss => pubIterate (startIterator mo ss sk e))
      = some (pubIterate (startIterator mo (applyBatches [] bs₁) sk e)) := by
  have hrun : runCmds { curr := [], snaps := [] }
      (bs₁.map Cmd.execBatch ++ Cmd.takeSnapshot n :: bs₂.map Cmd.execBatch)
      = { curr := applyBatches (applyBatches [] bs₁) bs₂,
          snaps := [(n, applyBatches [] bs₁)] } := by
    rw [runCmds_append, runCmds_execBatches]
    show runCmds (stepCmd { curr := applyBatches [] bs₁, snaps := [] }
      (Cmd.takeSnapshot n)) (bs₂.map Cmd.execBatch) = _
    rw [runCmds_execBatches]
    rfl
  have hrun₂ : runCmds { curr := [], snaps := [] }
      (bs₁.map Cmd.execBatch ++ [Cmd.takeSnapshot n])
      = { curr := applyBatches [] bs₁,
          snaps := [(n, applyBatches [] bs₁)] } := by
    rw [runCmds_append, runCmds_execBatches]
    rfl
  have hlook : lookupSnap (runCmds { curr := [], snaps := [] }
      (bs₁.map Cmd.execBatch ++ Cmd.takeSnapshot n :: bs₂.map Cmd.execBatch)) n
      = some (applyBatches [] bs₁) := by
    rw [hrun]
    simp [lookupSnap, List.find?]
  refine ⟨hlook, ?_, ?_, ?_⟩
  · rw [hrun, hrun₂]
  · rw [hlook]
    rfl
  · rw [hlook]
    rfl

/-- C9: the merger changes only the shape of the stack, never observable
contents: for a coherent merge operator (PartialMerge consistent with
FullMerge) and any number of merger cycles over a snapshot's strictly
sorted stack, every Get and every iteration yield exactly the same
results on the merged stack as on the original. -/
theorem mergerEquivalence (m : MergeOperator)
    (hcoh : ∀ k ex pre a b post c, m.partialMerge k a b = some c →
      m.fullMerge k ex (pre ++ a :: b :: post) = m.fullMerge k ex (pre ++ c :: post))
    (ns : List Nat) (ss ss2 : SegmentStack)
    (hss : ∀ s ∈ ss, SegLt s) (hm : mergeCycles m ss ns = Except.ok ss2) :
    (∀ k, stackGet (some m) ss2 k = stackGet (some m) ss k) ∧
    (∀ sk e, pubIterate (startIterator (some m) ss2 sk e)
      = pubIterate (startIterator (some m) ss sk e)) := by
  obtain ⟨hsorted2, hres, hpd⟩ := mergeCycles_props m hcoh ns ss ss2 hss hm
  constructor
  · intro k
    unfold stackGet
    exact hres k
  · intro sk e
    rw [pubIterate_startIterator _ _ _ _ hsorted2, pubIterate_startIterator _ _ _ _ hss]
    exact hpd (sk.getD []) e

/-- C9 witness: with the Append operator, one merger cycle over the top
two segments (two Merge records above a Set) leaves the Get of the key
unchanged. -/
theorem mergerEquivalence_witness :
    mergeCycles testMergeOperatorAppend
      [[(⟨Op.merge, [109], [79]⟩ : Record)], [(⟨Op.merge, [109], [78]⟩ : Record)],
       [(⟨Op.set, [109], [77]⟩ : Record)]] [2]
      = Except.ok [[(⟨Op.merge, [109], [78, 58, 79]⟩ : Record)],
        [(⟨Op.set, [109], [77]⟩ : Record)]] ∧
    stackGet (some testMergeOperatorAppend)
      [[(⟨Op.merge, [109], [78, 58, 79]⟩ : Record)], [(⟨Op.set, [109], [77]⟩ : Record)]] [109]
      = stackGet (some testMergeOperatorAppend)
      [[(⟨Op.merge, [109], [79]⟩ : Record)], [(⟨Op.merge, [109], [78]⟩ : Record)],
       [(⟨Op.set, [109], [77]⟩ : Record)]] [109] :=
  ⟨rfl,
   (mergerEquivalence testMergeOperatorAppend appendOp_coherent [2]
     [[⟨Op.merge, [109], [79]⟩], [⟨Op.merge, [109], [78]⟩], [⟨Op.set, [109], [77]⟩]]
     [[⟨Op.merge, [109], [78, 58, 79]⟩], [⟨Op.set, [109], [77]⟩]]
     (by simp only [SegLt]; decide) rfl).1 [109]⟩

/-- C4: an iterator started with bounds yields only keys `k` with
start_incl ≤ k < end_excl under lexicographic byte order (nil start is
minus infinity, nil end is plus infinity), at both the raw and public
levels; with start ≥ end the iterator yields nothing at all. -/
theorem iteratorRangeBounds (mo : Option MergeOperator) (ss : SegmentStack)
    (sk e : Option Bytes) (hss : ∀ s ∈ ss, SegLe s) :
    (∀ r ∈ rawIterate (startIterator mo ss sk e),
      bytesLe (sk.getD []) r.key = true ∧ belowEnd e r.key = true) ∧
    (∀ entry ∈ pubIterate (startIterator mo ss sk e), ∀ k v,
      entry = Except.ok (k, v) →
      bytesLe (sk.getD []) k = true ∧ belowEnd e k = true) ∧
    (∀ skv ev, sk = some skv → e = some ev → bytesLe ev skv = true →
      rawIterate (startIterator mo ss sk e) = [] ∧
      pubIterate (startIterator mo ss sk e) = []) := by
  have hcs := startIterator_cursorsSorted mo ss sk e hss
  have hlb := startIterator_lowerBounded mo ss sk e hss
  refine ⟨?_, ?_, ?_⟩
  · intro r hr
    exact rawIterate_bounds (remaining (startIterator mo ss sk e))
      (startIterator mo ss sk e) (sk.getD []) (le_refl _) hcs hlb r hr
  · intro entry he k v heq
    exact pubIterate_bounds (remaining (startIterator mo ss sk e))
      (startIterator mo ss sk e) (sk.getD []) (le_refl _) hcs hlb entry he k v heq
  · intro skv ev hsk hev hle
    subst hsk
    subst hev
    have htop : topKey (startIterator mo ss (some skv) (some ev)) = none :=
      topKey_none_of_degenerate hlb rfl hle
    exact ⟨rawIterate_done (rawCurrent_eq_none_iff.mpr htop), pubIterate_done htop⟩

/-- C4 witness: on a sorted one-segment stack, the iterator from start
"b" to end "a" (start above end) is empty at both levels. -/
theorem iteratorRangeBounds_witness :
    (∀ s ∈ [[(⟨Op.set, [98], [66]⟩ : Record)]], SegLe s) ∧
    rawIterate (startIterator none [[(⟨Op.set, [98], [66]⟩ : Record)]]
      (some [98]) (some [97])) = [] ∧
    pubIterate (startIterator none [[(⟨Op.set, [98], [66]⟩ : Record)]]
      (some [98]) (some [97])) = [] := by
  have hss : ∀ s ∈ [[(⟨Op.set, [98], [66]⟩ : Record)]], SegLe s := by
    simp only [SegLe]
    decide
  have h := (iteratorRangeBounds none [[(⟨Op.set, [98], [66]⟩ : Record)]]
    (some [98]) (some [97]) hss).2.2 [98] [97] rfl rfl (by decide)
  exact ⟨hss, h.1, h.2⟩

/-- C6: on a non-strictly sorted segment, `findStartKeyInclusivePos(key)`
returns a position no greater than any index whose key is ≥ `key` (and
itself carries a key ≥ `key`), returns `len()` when no index qualifies,
and treats a nil key like the empty key — the minimum, index 0 on any
non-empty segment. -/
theorem findStartSmallestIndex (s : Segment) (k : Option Bytes) (hs : SegLe s) :
    s.findStartKeyInclusivePos k ≤ s.length ∧
    (∀ i, i < s.length → bytesLe (k.getD []) (keyAt s i) = true →
      s.findStartKeyInclusivePos k ≤ i ∧
      bytesLe (k.getD []) (keyAt s (s.findStartKeyInclusivePos k)) = true) ∧
    ((∀ i, i < s.length → bytesLe (k.getD []) (keyAt s i) = false) →
      s.findStartKeyInclusivePos k = s.length) ∧
    s.findStartKeyInclusivePos none = s.findStartKeyInclusivePos (some []) ∧
    (s ≠ [] → s.findStartKeyInclusivePos none = 0) := by
  have hspec := findStart_spec s hs k
  obtain ⟨hlen, hlow, hhigh⟩ := hspec
  refine ⟨hlen, ?_, ?_, rfl, ?_⟩
  · intro i hi hki
    have hpi : s.findStartKeyInclusivePos k ≤ i := by
      by_contra hc
      rw [hlow i (by omega)] at hki
      exact absurd hki (by simp)
    exact ⟨hpi, hhigh _ (le_refl _) (by omega)⟩
  · intro hnone
    rcases Nat.lt_or_ge (s.findStartKeyInclusivePos k) s.length with hlt | hge
    · have := hhigh _ (le_refl _) hlt
      rw [hnone _ hlt] at this
      exact absurd this (by simp)
    · omega
  · intro hne
    rcases Nat.eq_zero_or_pos (s.findStartKeyInclusivePos none) with h0 | hpos
    · exact h0
    · exfalso
      have hspec₀ := findStart_spec s hs none
      obtain ⟨_, hlow₀, _⟩ := hspec₀
      have hfalse := hlow₀ 0 hpos
      have htrue : bytesLe ((none : Option Bytes).getD []) (keyAt s 0) = true := rfl
      rw [hfalse] at htrue
      exact Bool.noConfusion htrue

/-- C6 witness: in the sorted two-record segment with keys "a","c",
searching for "b" lands at index 1, whose key "c" is ≥ "b". -/
theorem findStartSmallestIndex_witness :
    SegLe [(⟨Op.set, [97], [65]⟩ : Record), (⟨Op.set, [99], [67]⟩ : Record)] ∧
    Segment.findStartKeyInclusivePos
      [(⟨Op.set, [97], [65]⟩ : Record), (⟨Op.set, [99], [67]⟩ : Record)] (some [98]) ≤ 1 ∧
    bytesLe [98] (keyAt [(⟨Op.set, [97], [65]⟩ : Record), (⟨Op.set, [99], [67]⟩ : Record)]
      (Segment.findStartKeyInclusivePos
        [(⟨Op.set, [97], [65]⟩ : Record), (⟨Op.set, [99], [67]⟩ : Record)] (some [98]))) = true := by
  have hs : SegLe [(⟨Op.set, [97], [65]⟩ : Record), (⟨Op.set, [99], [67]⟩ : Record)] := by
    simp only [SegLe]
    decide
  have h := (findStartSmallestIndex
    [(⟨Op.set, [97], [65]⟩ : Record), (⟨Op.set, [99], [67]⟩ : Record)]
    (some [98]) hs).2.1 1 (by decide) (by decide)
  exact ⟨hs, h.1, h.2⟩

/-- C1: last-write-wins and shadowing: over a stack built by executing
batches with per-batch distinct keys, a full-range public iterator yields
key `k` at most once; when the latest batch touching `k` Set it, Get
returns that value and the iterator yields exactly that entry; when the
latest operation on `k` was a Del, Get returns nil and the iterator never
yields `k`. -/
theorem lastWriteWinsShadowing (mo : Option MergeOperator) (k : Bytes) :
    (∀ bs : List Segment, (∀ b ∈ bs, (b.map (fun r => r.key)).Nodup) →
      ((pubIterate (startIterator mo (applyBatches [] bs) none none)).filter
        (entryHasKey k)).length ≤ 1) ∧
    (∀ (bs₁ : List Segment) (b₀ : Segment) (bs₂ : List Segment) (V₀ : Bytes),
      (∀ b ∈ bs₁ ++ b₀ :: bs₂, (b.map (fun r => r.key)).Nodup) →
      (⟨Op.set, k, V₀⟩ : Record) ∈ b₀ →
      (∀ b ∈ bs₂, ∀ r ∈ b, r.key ≠ k) →
      stackGet mo (applyBatches [] (bs₁ ++ b₀ :: bs₂)) k = Except.ok (some V₀) ∧
      (pubIterate (startIterator mo (applyBatches [] (bs₁ ++ b₀ :: bs₂)) none none)).filter
        (entryHasKey k) = [Except.ok (k, V₀)]) ∧
    (∀ (bs₁ : List Segment) (b₀ : Segment) (bs₂ : List Segment),
      (∀ b ∈ bs₁ ++ b₀ :: bs₂, (b.map (fun r => r.key)).Nodup) →
      (⟨Op.del, k, []⟩ : Record) ∈ b₀ →
      (∀ b ∈ bs₂, ∀ r ∈ b, r.key ≠ k) →
      stackGet mo (applyBatches [] (bs₁ ++ b₀ :: bs₂)) k = Except.ok none ∧
      (pubIterate (startIterator mo (applyBatches [] (bs₁ ++ b₀ :: bs₂)) none none)).filter
        (entryHasKey k) = []) := by
  refine ⟨?_, ?_, ?_⟩
  · intro bs hnodup
    rw [pubIterate_full_filter mo _ (applyBatches_segLt hnodup) k]
    by_cases hk : k ∈ stackKeys (applyBatches [] bs)
    · rw [if_pos hk]
      cases hpe : pubEntry mo (applyBatches [] bs) k with
      | none => simp
      | some entry =>
        simp only
        calc (List.filter (entryHasKey k) [entry]).length
            ≤ [entry].length := List.length_filter_le _ _
          _ = 1 := rfl
    · rw [if_neg hk]
      simp
  · intro bs₁ b₀ bs₂ V₀ hnodup hmem hafter
    have hnd₀ : (b₀.map (fun r => r.key)).Nodup :=
      hnodup b₀ (List.mem_append_right _ (List.mem_cons_self _ _))
    have hget : (Segment.sort b₀).getKey k = some ⟨Op.set, k, V₀⟩ :=
      getKey_sort_batch hnd₀ hmem rfl
    have hrec := recordsForKey_latest k bs₁ hget hafter
    have hkmem : k ∈ stackKeys (applyBatches [] (bs₁ ++ b₀ :: bs₂)) := by
      apply mem_stackKeys.mpr
      refine ⟨Segment.sort b₀,
        sort_mem_applyBatches_nil (List.mem_append_right _ (List.mem_cons_self _ _)),
        ⟨Op.set, k, V₀⟩, ?_, rfl⟩
      exact (sort_perm b₀).mem_iff.mpr hmem
    have hpe : pubEntry mo (applyBatches [] (bs₁ ++ b₀ :: bs₂)) k
        = some (Except.ok (k, V₀)) := by
      unfold pubEntry
      rw [hrec, resolveRecords_set mo k _ rfl]
    constructor
    · unfold stackGet
      rw [hrec]
      exact resolveRecords_set mo k _ rfl
    · rw [pubIterate_full_filter mo _ (applyBatches_segLt hnodup) k, if_pos hkmem, hpe]
      simp [entryHasKey]
  · intro bs₁ b₀ bs₂ hnodup hmem hafter
    have hnd₀ : (b₀.map (fun r => r.key)).Nodup :=
      hnodup b₀ (List.mem_append_right _ (List.mem_cons_self _ _))
    have hget : (Segment.sort b₀).getKey k = some ⟨Op.del, k, []⟩ :=
      getKey_sort_batch hnd₀ hmem rfl
    have hrec := recordsForKey_latest k bs₁ hget hafter
    have hpe : pubEntry mo (applyBatches [] (bs₁ ++ b₀ :: bs₂)) k = none := by
      unfold pubEntry
      rw [hrec, resolveRecords_del mo k _ rfl]
    constructor
    · unfold stackGet
      rw [hrec]
      exact resolveRecords_del mo k _ rfl
    · rw [pubIterate_full_filter mo _ (applyBatches_segLt hnodup) k, hpe]
      by_cases hk : k ∈ stackKeys (applyBatches [] (bs₁ ++ b₀ :: bs₂))
      · rw [if_pos hk]
      · rw [if_neg hk]

/-- C1 witness: Set "a"="A" in one batch, then Set "a"="B" in a later
batch: Get returns "B" and the iterator yields "a" exactly once with "B". -/
theorem lastWriteWinsShadowing_witness :
    stackGet none (applyBatches []
        ([Batch.set [] [97] [65]] ++ Batch.set [] [97] [66] :: [])) [97]
      = Except.ok (some [66]) ∧
    (pubIterate (startIterator none (applyBatches []
        ([Batch.set [] [97] [65]] ++ Batch.set [] [97] [66] :: [])) none none)).filter
      (entryHasKey [97]) = [Except.ok ([97], [66])] :=
  (lastWriteWinsShadowing none [97]).2.1 [Batch.set [] [97] [65]]
    (Batch.set [] [97] [66]) [] [66] (by decide) (by decide) (by decide)

theorem rangeKeys_ge (ss : SegmentStack) (k : Bytes) :
    rangeKeys ss k none none = (stackKeys ss).filter (fun x => bytesLe k x) := by
  unfold rangeKeys
  apply List.filter_congr
  intro x _
  unfold lowerOK frontierLt belowEnd
  simp

/-- C5: deletion visibility: when the newest record of key `k` in the
snapshot's stack is a Del, the raw `current()` view exposes that Del
record as-is — positioned on `k` it returns (Del, k, nil) and the raw
enumeration lists exactly the tombstone for `k` — while the public
`Current()` view skips `k` transparently: it never returns an entry for
`k`, and the public enumeration holds no entry with key `k`. -/
theorem delVisibleRawNotPub (mo : Option MergeOperator) (k : Bytes)
    (bs₁ : List Segment) (b₀ : Segment) (bs₂ : List Segment)
    (hnodup : ∀ b ∈ bs₁ ++ b₀ :: bs₂, (b.map (fun r => r.key)).Nodup)
    (hmem : (⟨Op.del, k, []⟩ : Record) ∈ b₀)
    (hafter : ∀ b ∈ bs₂, ∀ r ∈ b, r.key ≠ k) :
    Iter.current (startIterator mo (applyBatches [] (bs₁ ++ b₀ :: bs₂)) (some k) none)
      = Except.ok (Op.del, k, []) ∧
    (rawIterate (startIterator mo (applyBatches [] (bs₁ ++ b₀ :: bs₂)) none none)).filter
      (fun r => r.key == k) = [(⟨Op.del, k, []⟩ : Record)] ∧
    (∀ v, Iter.CurrentPub (startIterator mo (applyBatches [] (bs₁ ++ b₀ :: bs₂)) (some k) none)
      ≠ Except.ok (k, v)) ∧
    (pubIterate (startIterator mo (applyBatches [] (bs₁ ++ b₀ :: bs₂)) none none)).filter
      (entryHasKey k) = [] := by
  have hss := applyBatches_segLt hnodup
  have hnd₀ : (b₀.map (fun r => r.key)).Nodup :=
    hnodup b₀ (List.mem_append_right _ (List.mem_cons_self _ _))
  have hget : (Segment.sort b₀).getKey k = some ⟨Op.del, k, []⟩ :=
    getKey_sort_batch hnd₀ hmem rfl
  have hrec := recordsForKey_latest k bs₁ hget hafter
  have hkmem : k ∈ stackKeys (applyBatches [] (bs₁ ++ b₀ :: bs₂)) := by
    apply mem_stackKeys.mpr
    refine ⟨Segment.sort b₀,
      sort_mem_applyBatches_nil (List.mem_append_right _ (List.mem_cons_self _ _)),
      ⟨Op.del, k, []⟩, ?_, rfl⟩
    exact (sort_perm b₀).mem_iff.mpr hmem
  obtain ⟨rest, hflt⟩ :=
    filter_ge_sorted_head (stackKeys_sorted (applyBatches [] (bs₁ ++ b₀ :: bs₂))) hkmem
  have hraw : rawIterate (startIterator mo (applyBatches [] (bs₁ ++ b₀ :: bs₂)) (some k) none)
      = rawDenote (applyBatches [] (bs₁ ++ b₀ :: bs₂)) k none none := by
    have h := rawIterate_startIterator mo (applyBatches [] (bs₁ ++ b₀ :: bs₂)) (some k) none hss
    rw [Option.getD_some] at h
    exact h
  have hdenote : rawDenote (applyBatches [] (bs₁ ++ b₀ :: bs₂)) k none none
      = (⟨Op.del, k, []⟩ : Record) :: rest.filterMap
          (fun x => (recordsForKey (applyBatches [] (bs₁ ++ b₀ :: bs₂)) x).head?) := by
    unfold rawDenote
    rw [rangeKeys_ge, hflt]
    simp only [List.filterMap_cons, hrec, List.head?_cons]
  have hpe : pubEntry mo (applyBatches [] (bs₁ ++ b₀ :: bs₂)) k = none := by
    unfold pubEntry
    rw [hrec, resolveRecords_del mo k _ rfl]
  have hpub : pubIterate (startIterator mo (applyBatches [] (bs₁ ++ b₀ :: bs₂)) (some k) none)
      = pubDenote mo (applyBatches [] (bs₁ ++ b₀ :: bs₂)) k none none := by
    have h := pubIterate_startIterator mo (applyBatches [] (bs₁ ++ b₀ :: bs₂)) (some k) none hss
    rw [Option.getD_some] at h
    exact h
  have hfilter : (pubDenote mo (applyBatches [] (bs₁ ++ b₀ :: bs₂)) k none none).filter
      (entryHasKey k) = [] := by
    unfold pubDenote
    rw [rangeKeys_ge]
    rw [filter_entryHasKey_mem mo _ k _
      ((nodup_of_pairwise_lt (stackKeys_sorted _)).filter _)
      (by rw [hflt]; exact List.mem_cons_self _ _), hpe]
  refine ⟨?_, ?_, ?_, ?_⟩
  · have hcur := rawCurrent_of_rawIterate_cons (by rw [hraw, hdenote])
    unfold Iter.current
    rw [hcur]
  · rw [rawIterate_full_filter mo _ hss k, if_pos hkmem]
    simp only [hrec, List.head?_cons]
  · intro v hv
    cases hP : pubIterate (startIterator mo (applyBatches [] (bs₁ ++ b₀ :: bs₂)) (some k) none) with
    | nil =>
      have hv' : Iter.CurrentPub (startIterator mo (applyBatches [] (bs₁ ++ b₀ :: bs₂))
          (some k) none) = Except.error Err.iteratorDone := by
        unfold Iter.CurrentPub
        rw [hP]
      rw [hv'] at hv
      exact absurd hv (by simp)
    | cons entry es =>
      have hv' : Iter.CurrentPub (startIterator mo (applyBatches [] (bs₁ ++ b₀ :: bs₂))
          (some k) none) = entry := by
        unfold Iter.CurrentPub
        rw [hP]
      rw [hv'] at hv
      have hmemE : entry ∈ pubIterate (startIterator mo (applyBatches [] (bs₁ ++ b₀ :: bs₂))
          (some k) none) := by
        rw [hP]
        exact List.mem_cons_self _ _
      have hfalse : ¬ entryHasKey k entry = true := by
        have h0 : (pubIterate (startIterator mo (applyBatches [] (bs₁ ++ b₀ :: bs₂))
            (some k) none)).filter (entryHasKey k) = [] := by
          rw [hpub]
          exact hfilter
        exact List.filter_eq_nil_iff.mp h0 entry hmemE
      apply hfalse
      rw [hv]
      simp [entryHasKey]
  · rw [pubIterate_full_filter mo _ hss k, hpe]
    by_cases hk : k ∈ stackKeys (applyBatches [] (bs₁ ++ b₀ :: bs₂))
    · rw [if_pos hk]
    · rw [if_neg hk]

/-- C5 witness: after a single batch Del "a", the raw iterator positioned
on "a" returns the Del record while the public view never yields "a". -/
theorem delVisibleRawNotPub_witness :
    Iter.current (startIterator none
        (applyBatches [] ([] ++ Batch.del [] [97] :: [])) (some [97]) none)
      = Except.ok (Op.del, [97], []) ∧
    (pubIterate (startIterator none
        (applyBatches [] ([] ++ Batch.del [] [97] :: [])) none none)).filter
      (entryHasKey [97]) = [] := by
  have h := delVisibleRawNotPub none [97] [] (Batch.del [] [97]) []
    (by decide) (by decide) (by decide)
  exact ⟨h.1, h.2.2.2⟩

theorem stackGet_set_merges (m : MergeOperator) (k : Bytes)
    (mm : Bytes) (ms : List Bytes) (V₀ : Bytes)
    (bs₁ : List Segment) (b₀ : Segment) (bs₂ : List Segment)
    (hmem : (⟨Op.set, k, V₀⟩ : Record) ∈ b₀)
    (hnd₀ : (b₀.map (fun r => r.key)).Nodup)
    (hnd₂ : ∀ b ∈ bs₂, (b.map (fun r => r.key)).Nodup)
    (hf : List.Forall₂ (fun b o => (⟨Op.merge, k, o⟩ : Record) ∈ b) bs₂ (mm :: ms)) :
    stackGet (some m) (applyBatches [] (bs₁ ++ b₀ :: bs₂)) k
      = match m.fullMerge k (some V₀) (mm :: ms) with
        | some v => Except.ok (some v)
        | none => Except.error Err.mergeOperatorFullMergeFailed := by
  have hgetset : (Segment.sort b₀).getKey k = some ⟨Op.set, k, V₀⟩ :=
    getKey_sort_batch hnd₀ hmem rfl
  unfold stackGet
  rw [recordsForKey_applyBatches, List.filterMap_append]
  simp only [List.filterMap_cons, hgetset]
  rw [filterMap_getKey_merges bs₂ (mm :: ms) hnd₂ hf]
  rw [List.reverse_append, List.reverse_cons, List.append_assoc]
  rw [resolveRecords_mergeRun m k mm ms]
  have hcmt : collectMerge ([(⟨Op.set, k, V₀⟩ : Record)]
      ++ (bs₁.filterMap (fun b => (Segment.sort b).getKey k)).reverse)
      = ([], some (some V₀)) := rfl
  rw [hcmt]
  rfl

theorem stackGet_only_merges (m : MergeOperator) (k : Bytes)
    (mm : Bytes) (ms : List Bytes) (bs₁ bs₂ : List Segment)
    (hbefore : ∀ b ∈ bs₁, ∀ r ∈ b, r.key ≠ k)
    (hnd₂ : ∀ b ∈ bs₂, (b.map (fun r => r.key)).Nodup)
    (hf : List.Forall₂ (fun b o => (⟨Op.merge, k, o⟩ : Record) ∈ b) bs₂ (mm :: ms)) :
    stackGet (some m) (applyBatches [] (bs₁ ++ bs₂)) k
      = match m.fullMerge k none (mm :: ms) with
        | some v => Except.ok (some v)
        | none => Except.error Err.mergeOperatorFullMergeFailed := by
  unfold stackGet
  rw [recordsForKey_applyBatches, List.filterMap_append]
  rw [filterMap_getKey_none bs₁ hbefore, filterMap_getKey_merges bs₂ (mm :: ms) hnd₂ hf]
  rw [List.nil_append]
  have h := resolveRecords_mergeRun m k mm ms []
  rw [List.append_nil] at h
  rw [h]
  rfl

theorem currentPub_of_resolve (mo : Option MergeOperator) (ss : SegmentStack)
    (hss : ∀ s ∈ ss, SegLt s) {k v : Bytes}
    (hkmem : k ∈ stackKeys ss)
    (hres : stackGet mo ss k = Except.ok (some v)) :
    Iter.CurrentPub (startIterator mo ss (some k) none) = Except.ok (k, v) := by
  unfold stackGet at hres
  obtain ⟨rest, hflt⟩ := filter_ge_sorted_head (stackKeys_sorted ss) hkmem
  have hpe : pubEntry mo ss k = some (Except.ok (k, v)) := by
    unfold pubEntry
    rw [hres]
  have hpub : pubIterate (startIterator mo ss (some k) none)
      = pubDenote mo ss k none none := by
    have h := pubIterate_startIterator mo ss (some k) none hss
    rw [Option.getD_some] at h
    exact h
  have hshape : pubDenote mo ss k none none
      = Except.ok (k, v) :: rest.filterMap (pubEntry mo ss) := by
    unfold pubDenote
    rw [rangeKeys_ge, hflt]
    simp only [List.filterMap_cons, hpe]
  unfold Iter.CurrentPub
  rw [hpub, hshape]

/-- C3: merge resolution: when key `k` was written by a Set of `V₀` and
then one Merge per later batch with operands `mm :: ms`
(oldest-to-newest), a public read — Get, and the public `Current()` of an
iterator positioned on `k` — returns FullMerge(k, V₀, mm :: ms); with
only the Merges and no prior write of `k`, it returns
FullMerge(k, nil, mm :: ms); concretely, with the Append operator the
three batches Merge("m","M"), Merge("m","N"), Merge("m","O") make both
Get("m") and the iterator's Current() return ":M:N:O". -/
theorem mergeResolutionChain (m : MergeOperator) (k : Bytes)
    (mm : Bytes) (ms : List Bytes) :
    (∀ (V₀ : Bytes) (bs₁ : List Segment) (b₀ : Segment) (bs₂ : List Segment),
      (⟨Op.set, k, V₀⟩ : Record) ∈ b₀ →
      (b₀.map (fun r => r.key)).Nodup →
      (∀ b ∈ bs₂, (b.map (fun r => r.key)).Nodup) →
      List.Forall₂ (fun b o => (⟨Op.merge, k, o⟩ : Record) ∈ b) bs₂ (mm :: ms) →
      stackGet (some m) (applyBatches [] (bs₁ ++ b₀ :: bs₂)) k
        = match m.fullMerge k (some V₀) (mm :: ms) with
          | some v => Except.ok (some v)
          | none => Except.error Err.mergeOperatorFullMergeFailed) ∧
    (∀ (bs₁ bs₂ : List Segment),
      (∀ b ∈ bs₁, ∀ r ∈ b, r.key ≠ k) →
      (∀ b ∈ bs₂, (b.map (fun r => r.key)).Nodup) →
      List.Forall₂ (fun b o => (⟨Op.merge, k, o⟩ : Record) ∈ b) bs₂ (mm :: ms) →
      stackGet (some m) (applyBatches [] (bs₁ ++ bs₂)) k
        = match m.fullMerge k none (mm :: ms) with
          | some v => Except.ok (some v)
          | none => Except.error Err.mergeOperatorFullMergeFailed) ∧
    (∀ (V₀ : Bytes) (bs₁ : List Segment) (b₀ : Segment) (bs₂ : List Segment),
      (∀ b ∈ bs₁ ++ b₀ :: bs₂, (b.map (fun r => r.key)).Nodup) →
      (⟨Op.set, k, V₀⟩ : Record) ∈ b₀ →
      List.Forall₂ (fun b o => (⟨Op.merge, k, o⟩ : Record) ∈ b) bs₂ (mm :: ms) →
      ∀ v, m.fullMerge k (some V₀) (mm :: ms) = some v →
      Iter.CurrentPub (startIterator (some m)
          (applyBatches [] (bs₁ ++ b₀ :: bs₂)) (some k) none)
        = Except.ok (k, v)) ∧
    (∀ (bs₁ bs₂ : List Segment),
      (∀ b ∈ bs₁ ++ bs₂, (b.map (fun r => r.key)).Nodup) →
      (∀ b ∈ bs₁, ∀ r ∈ b, r.key ≠ k) →
      List.Forall₂ (fun b o => (⟨Op.merge, k, o⟩ : Record) ∈ b) bs₂ (mm :: ms) →
      ∀ v, m.fullMerge k none (mm :: ms) = some v →
      Iter.CurrentPub (startIterator (some m)
          (applyBatches [] (bs₁ ++ bs₂)) (some k) none)
        = Except.ok (k, v)) ∧
    stackGet (some testMergeOperatorAppend)
      (applyBatches [] [Batch.mergeOp [] [109] [77], Batch.mergeOp [] [109] [78],
        Batch.mergeOp [] [109] [79]]) [109]
      = Except.ok (some [58, 77, 58, 78, 58, 79]) ∧
    Iter.CurrentPub (startIterator (some testMergeOperatorAppend)
      (applyBatches [] [Batch.mergeOp [] [109] [77], Batch.mergeOp [] [109] [78],
        Batch.mergeOp [] [109] [79]]) none none)
      = Except.ok ([109], [58, 77, 58, 78, 58, 79]) := by
  refine ⟨stackGet_set_merges m k mm ms, stackGet_only_merges m k mm ms, ?_, ?_, rfl, rfl⟩
  · intro V₀ bs₁ b₀ bs₂ hnodup hmem hf v hv
    have hnd₀ : (b₀.map (fun r => r.key)).Nodup :=
      hnodup b₀ (List.mem_append_right _ (List.mem_cons_self _ _))
    have hnd₂ : ∀ b ∈ bs₂, (b.map (fun r => r.key)).Nodup := fun b hb =>
      hnodup b (List.mem_append_right _ (List.mem_cons_of_mem _ hb))
    have hres : stackGet (some m) (applyBatches [] (bs₁ ++ b₀ :: bs₂)) k
        = Except.ok (some v) := by
      rw [stackGet_set_merges m k mm ms V₀ bs₁ b₀ bs₂ hmem hnd₀ hnd₂ hf, hv]
    have hkmem : k ∈ stackKeys (applyBatches [] (bs₁ ++ b₀ :: bs₂)) := by
      apply mem_stackKeys.mpr
      refine ⟨Segment.sort b₀,
        sort_mem_applyBatches_nil (List.mem_append_right _ (List.mem_cons_self _ _)),
        ⟨Op.set, k, V₀⟩, ?_, rfl⟩
      exact (sort_perm b₀).mem_iff.mpr hmem
    exact currentPub_of_resolve (some m) _ (applyBatches_segLt hnodup) hkmem hres
  · intro bs₁ bs₂ hnodup hbefore hf v hv
    have hnd₂ : ∀ b ∈ bs₂, (b.map (fun r => r.key)).Nodup := fun b hb =>
      hnodup b (List.mem_append_right _ hb)
    have hres : stackGet (some m) (applyBatches [] (bs₁ ++ bs₂)) k
        = Except.ok (some v) := by
      rw [stackGet_only_merges m k mm ms bs₁ bs₂ hbefore hnd₂ hf, hv]
    cases hf with
    | cons hmemb hrest =>
      rename_i b bs₂x
      have hkmem : k ∈ stackKeys (applyBatches [] (bs₁ ++ b :: bs₂x)) := by
        apply mem_stackKeys.mpr
        refine ⟨Segment.sort b,
          sort_mem_applyBatches_nil (List.mem_append_right _ (List.mem_cons_self _ _)),
          ⟨Op.merge, k, mm⟩, ?_, rfl⟩
        exact (sort_perm b).mem_iff.mpr hmemb
      exact currentPub_of_resolve (some m) _ (applyBatches_segLt hnodup) hkmem hres

/-- C3 witness: the S7 merge chain as an instance of the no-prior-Set
case: three singleton Merge batches for key "m" with the Append operator
resolve through FullMerge(k, nil, [M, N, O]) to ":M:N:O", through Get and
through the public Current of an iterator positioned on "m". -/
theorem mergeResolutionChain_witness :
    stackGet (some testMergeOperatorAppend)
      (applyBatches [] ([] ++ [Batch.mergeOp [] [109] [77], Batch.mergeOp [] [109] [78],
        Batch.mergeOp [] [109] [79]])) [109]
      = Except.ok (some [58, 77, 58, 78, 58, 79]) ∧
    Iter.CurrentPub (startIterator (some testMergeOperatorAppend)
      (applyBatches [] ([] ++ [Batch.mergeOp [] [109] [77], Batch.mergeOp [] [109] [78],
        Batch.mergeOp [] [109] [79]])) (some [109]) none)
      = Except.ok ([109], [58, 77, 58, 78, 58, 79]) := by
  have hget := (mergeResolutionChain testMergeOperatorAppend [109] [77] [[78], [79]]).2.1
    [] [Batch.mergeOp [] [109] [77], Batch.mergeOp [] [109] [78], Batch.mergeOp [] [109] [79]]
    (by decide) (by decide)
    (by refine List.Forall₂.cons (by decide) (List.Forall₂.cons (by decide)
      (List.Forall₂.cons (by decide) List.Forall₂.nil)))
  have hcur := (mergeResolutionChain testMergeOperatorAppend [109] [77] [[78], [79]]).2.2.2.1
    [] [Batch.mergeOp [] [109] [77], Batch.mergeOp [] [109] [78], Batch.mergeOp [] [109] [79]]
    (by decide) (by decide)
    (by refine List.Forall₂.cons (by decide) (List.Forall₂.cons (by decide)
      (List.Forall₂.cons (by decide) List.Forall₂.nil)))
    [58, 77, 58, 78, 58, 79] rfl
  constructor
  · rw [hget]
    rfl
  · exact hcur
